import Mathlib

/-!
Verification of `server.py`: the menu-document patcher (`_extract_menu_json`,
`write_menu`) and the flat-file reservation store (`load_reservations`,
`save_reservations`, `create_reservation`, `delete_reservation`).

Modelling conventions:
* Python strings are `List Char` (sequences of code points).
* JSON values (the results of `json.loads` and inputs of `json.dumps`) are the
  mutual inductive `Json` / `JsonList` / `JsonFields`.  Python dicts keep
  insertion order and collapse duplicate keys; `JsonFields` keeps the parsed
  field list in order, and theorems that depend on dict semantics use the
  last-binding lookup `fieldsGet` (a later duplicate key overrides an earlier
  one, as in a Python dict built by `json.loads`).
* `json.dumps(x, ensure_ascii=False, indent=2)` is the executable `dumpVal`.
* `json.loads` is the executable `jsonLoads`.  Two documented restrictions of
  the model: JSON numbers are modelled as arbitrary-precision integers only
  (floats, `NaN`, `Infinity` are outside the model), and `\uXXXX` escapes are
  modelled for non-surrogate code points only.
-/

namespace QrVerify

mutual

/-- A JSON value, as handled by `json.loads` / `json.dumps` in `server.py`.
Numbers are modelled as integers (see the file header). -/
inductive Json where
  | null : Json
  | bool (b : Bool) : Json
  | num (n : Int) : Json
  | str (s : List Char) : Json
  | arr (elems : JsonList) : Json
  | obj (fields : JsonFields) : Json
deriving DecidableEq

/-- The element list of a JSON array (mutual with `Json`). -/
inductive JsonList where
  | nil : JsonList
  | cons (hd : Json) (tl : JsonList) : JsonList
deriving DecidableEq

/-- The ordered field list of a JSON object (mutual with `Json`). -/
inductive JsonFields where
  | nil : JsonFields
  | cons (key : List Char) (val : Json) (tl : JsonFields) : JsonFields
deriving DecidableEq

end

/-- Model of Python's `sub in s` / prefix test: `pat` is a prefix of `s`. -/
def listIsPref : List Char → List Char → Bool
  | [], _ => true
  | _ :: _, [] => false
  | a :: as, b :: bs => a = b && listIsPref as bs

/-- Smallest `i` such that `pat` occurs in `s` at position `i`; models the
search done by Python's `str.index` (which raises `ValueError` on `none`). -/
def firstIdx (pat : List Char) : List Char → Option Nat
  | [] => if listIsPref pat [] then some 0 else none
  | c :: rest =>
    if listIsPref pat (c :: rest) then some 0
    else (firstIdx pat rest).map (· + 1)

/-- Model of Python's `s.index(pat, start)`: smallest `i ≥ start` at which
`pat` occurs in `s`. -/
def idxFrom (s pat : List Char) (start : Nat) : Option Nat :=
  (firstIdx pat (s.drop start)).map (· + start)

/-- JSON whitespace, as in Python's `json` module (`[ \t\n\r]`). -/
def isWs (c : Char) : Bool := c = ' ' || c = '\t' || c = '\n' || c = '\r'

/-- Drop leading JSON whitespace (the `_w(s, idx).end()` idiom in `json`). -/
def skipWs : List Char → List Char
  | [] => []
  | c :: r => if isWs c then skipWs r else c :: r

/-- Decimal digit test (`[0-9]`, as in the `json` number regex). -/
def isDig (c : Char) : Bool := '0' ≤ c && c ≤ '9'

/-- The character of a decimal digit `d < 10`. -/
def digitChar (d : Nat) : Char := Char.ofNat (48 + d)

/-- Lowercase hex digit character, as produced by Python's `'%04x'` format. -/
def hexDigitChar (d : Nat) : Char :=
  if d < 10 then Char.ofNat (48 + d) else Char.ofNat (87 + d)

/-- Decimal digits of `n`, least significant first, with a fuel argument to
keep the recursion structural (any fuel above `n` gives the digits). -/
def natDigitsRevAux : Nat → Nat → List Char
  | 0, _ => []
  | fuel + 1, n =>
    if n < 10 then [digitChar n]
    else digitChar (n % 10) :: natDigitsRevAux fuel (n / 10)

/-- Decimal digits of `n`, least significant first. -/
def natDigitsRev (n : Nat) : List Char := natDigitsRevAux (n + 1) n

/-- Decimal digits of `n`, most significant first (Python's `str(n)` for
`n ≥ 0`). -/
def natChars (n : Nat) : List Char := (natDigitsRev n).reverse

/-- Python's `str(i)` for an integer, as emitted by `json.dumps`. -/
def intChars : Int → List Char
  | .ofNat n => natChars n
  | .negSucc n => '-' :: natChars (n + 1)

/-- Numeric value of a digit list, most significant first (Python's `int`). -/
def digitsVal (ds : List Char) : Nat :=
  ds.foldl (fun a c => 10 * a + (c.toNat - 48)) 0

/-- Escape of one character inside a JSON string, following
`json.encoder.py_encode_basestring` (used when `ensure_ascii=False`): only
`"`, `\` and control characters below `0x20` are escaped. -/
def escChar (c : Char) : List Char :=
  if c = '"' then ['\\', '"']
  else if c = '\\' then ['\\', '\\']
  else if c = '\x08' then ['\\', 'b']
  else if c = '\x0c' then ['\\', 'f']
  else if c = '\n' then ['\\', 'n']
  else if c = '\x0d' then ['\\', 'r']
  else if c = '\t' then ['\\', 't']
  else if c.toNat < 32 then
    ['\\', 'u', '0', '0', hexDigitChar (c.toNat / 16), hexDigitChar (c.toNat % 16)]
  else [c]

/-- Escape a whole string body. -/
def escList : List Char → List Char
  | [] => []
  | c :: r => escChar c ++ escList r

/-- Indentation of `n` spaces, as produced by `json.dumps(..., indent=2)`. -/
def pad (n : Nat) : List Char := List.replicate n ' '

mutual

/-- Model of `json.dumps(v, ensure_ascii=False, indent=2)` at nesting level
`lv` (`server.py` calls it at top level, `lv = 0`). -/
def dumpVal : Json → Nat → List Char
  | .null, _ => ['n', 'u', 'l', 'l']
  | .bool true, _ => ['t', 'r', 'u', 'e']
  | .bool false, _ => ['f', 'a', 'l', 's', 'e']
  | .num n, _ => intChars n
  | .str s, _ => '"' :: (escList s ++ ['"'])
  | .arr .nil, _ => ['[', ']']
  | .arr (.cons h t), lv =>
    '[' :: '\n' :: (pad (2 * (lv + 1)) ++ dumpVal h (lv + 1) ++ dumpElemsRest t (lv + 1)
      ++ '\n' :: (pad (2 * lv) ++ [']']))
  | .obj .nil, _ => ['{', '}']
  | .obj (.cons k v t), lv =>
    '{' :: '\n' :: (pad (2 * (lv + 1))
      ++ ('"' :: (escList k ++ '"' :: ':' :: ' ' :: dumpVal v (lv + 1)))
      ++ dumpFieldsRest t (lv + 1) ++ '\n' :: (pad (2 * lv) ++ ['}']))

/-- The `",\n<indent>value"` continuation of a pretty-printed array. -/
def dumpElemsRest : JsonList → Nat → List Char
  | .nil, _ => []
  | .cons h t, lv => ',' :: '\n' :: (pad (2 * lv) ++ dumpVal h lv ++ dumpElemsRest t lv)

/-- The `",\n<indent>\"key\": value"` continuation of a pretty-printed object. -/
def dumpFieldsRest : JsonFields → Nat → List Char
  | .nil, _ => []
  | .cons k v t, lv =>
    ',' :: '\n' :: (pad (2 * lv)
      ++ ('"' :: (escList k ++ '"' :: ':' :: ' ' :: dumpVal v lv))
      ++ dumpFieldsRest t lv)

end

/-- One `"key": value` member of a pretty-printed object (the shape inlined
in the object cases of `dumpVal` and `dumpFieldsRest` above). -/
def kvDump (k : List Char) (v : Json) (lv : Nat) : List Char :=
  '"' :: (escList k ++ '"' :: ':' :: ' ' :: dumpVal v lv)

theorem dumpVal_obj_cons (k : List Char) (v : Json) (t : JsonFields) (lv : Nat) :
    dumpVal (.obj (.cons k v t)) lv =
      '{' :: '\n' :: (pad (2 * (lv + 1)) ++ kvDump k v (lv + 1)
        ++ dumpFieldsRest t (lv + 1) ++ '\n' :: (pad (2 * lv) ++ ['}'])) := rfl

theorem dumpFieldsRest_cons (k : List Char) (v : Json) (t : JsonFields) (lv : Nat) :
    dumpFieldsRest (.cons k v t) lv =
      ',' :: '\n' :: (pad (2 * lv) ++ kvDump k v lv ++ dumpFieldsRest t lv) := rfl

/-- Value of a hex digit, as accepted by the `\uXXXX` escape of `json.loads`
(both cases accepted). -/
def hexVal (c : Char) : Option Nat :=
  if '0' ≤ c && c ≤ '9' then some (c.toNat - 48)
  else if 'a' ≤ c && c ≤ 'f' then some (c.toNat - 87)
  else if 'A' ≤ c && c ≤ 'F' then some (c.toNat - 55)
  else none

/-- Unescape of a single-character escape, as in `json.decoder.BACKSLASH`. -/
def unescChar (e : Char) : Option Char :=
  if e = '"' then some '"'
  else if e = '\\' then some '\\'
  else if e = '/' then some '/'
  else if e = 'b' then some '\x08'
  else if e = 'f' then some '\x0c'
  else if e = 'n' then some '\n'
  else if e = 'r' then some '\x0d'
  else if e = 't' then some '\t'
  else none

/-- Model of `json.decoder.py_scanstring` after the opening quote, in strict
mode (the `json.loads` default): unescaped control characters below `0x20`
are rejected.  `\uXXXX` is modelled for non-surrogate code points (see the
file header). -/
def parseStrBody : List Char → Option (List Char × List Char)
  | [] => none
  | c :: r =>
    if c = '"' then some ([], r)
    else if c = '\\' then
      match r with
      | [] => none
      | e :: r2 =>
        if e = 'u' then
          match r2 with
          | h1 :: h2 :: h3 :: h4 :: r3 =>
            match hexVal h1, hexVal h2, hexVal h3, hexVal h4 with
            | some a, some b, some c3, some d =>
              (parseStrBody r3).map
                (fun p => (Char.ofNat (((a * 16 + b) * 16 + c3) * 16 + d) :: p.1, p.2))
            | _, _, _, _ => none
          | _ => none
        else
          match unescChar e with
          | some u => (parseStrBody r2).map (fun p => (u :: p.1, p.2))
          | none => none
    else if c.toNat < 32 then none
    else (parseStrBody r).map (fun p => (c :: p.1, p.2))

/-- Longest digit span at the head of the input (the `\d*` pieces of the
`json` number regex). -/
def spanDigits : List Char → List Char × List Char
  | [] => ([], [])
  | c :: r =>
    if isDig c then
      let p := spanDigits r
      (c :: p.1, p.2)
    else ([], c :: r)

/-- Model of the `json` number scanner restricted to integers: an optional
sign, then `0` or a nonzero digit followed by digits (the regex
`-?(0|[1-9]\d*)`); a following `.`, `e` or `E` would start a float, which is
outside this model (see the file header), so the parse is rejected there. -/
def parseIntTail (s : List Char) : Option (Nat × List Char) :=
  match spanDigits s with
  | ([], _) => none
  | (d :: ds, rest) =>
    if d = '0' && ds ≠ [] then none
    else
      match rest with
      | [] => some (digitsVal (d :: ds), [])
      | c :: _ =>
        if c = '.' || c = 'e' || c = 'E' then none
        else some (digitsVal (d :: ds), rest)

/-- A JSON number with its optional leading minus sign. -/
def parseNumber (s : List Char) : Option (Int × List Char) :=
  match s with
  | [] => none
  | c :: r =>
    if c = '-' then (parseIntTail r).map (fun p => (-(p.1 : Int), p.2))
    else (parseIntTail (c :: r)).map (fun p => ((p.1 : Int), p.2))

mutual

/-- Model of `json.scanner.py_make_scanner`'s `_scan_once`: parse one JSON
value starting at a non-whitespace position.  The fuel argument only bounds
the recursion; `jsonLoads` passes enough for any input. -/
def parseVal : Nat → List Char → Option (Json × List Char)
  | 0, _ => none
  | fuel + 1, s =>
    match s with
    | [] => none
    | c :: r =>
      if c = '"' then
        match parseStrBody r with
        | some (cs, r2) => some (.str cs, r2)
        | none => none
      else if c = '{' then
        match skipWs r with
        | c2 :: r2 =>
          if c2 = '}' then some (.obj .nil, r2)
          else
            match parseFields fuel (c2 :: r2) with
            | some (fs, r3) => some (.obj fs, r3)
            | none => none
        | [] => none
      else if c = '[' then
        match skipWs r with
        | c2 :: r2 =>
          if c2 = ']' then some (.arr .nil, r2)
          else
            match parseElems fuel (c2 :: r2) with
            | some (es, r3) => some (.arr es, r3)
            | none => none
        | [] => none
      else if c = 'n' then
        match r with
        | 'u' :: 'l' :: 'l' :: r2 => some (.null, r2)
        | _ => none
      else if c = 't' then
        match r with
        | 'r' :: 'u' :: 'e' :: r2 => some (.bool true, r2)
        | _ => none
      else if c = 'f' then
        match r with
        | 'a' :: 'l' :: 's' :: 'e' :: r2 => some (.bool false, r2)
        | _ => none
      else if c = '-' || isDig c then
        match parseNumber (c :: r) with
        | some (n, r2) => some (.num n, r2)
        | none => none
      else none

/-- One-or-more array elements, starting at a non-whitespace position
(`json.decoder.JSONArray`; the empty array is handled in `parseVal`). -/
def parseElems : Nat → List Char → Option (JsonList × List Char)
  | 0, _ => none
  | fuel + 1, s =>
    match parseVal fuel s with
    | none => none
    | some (v, r) =>
      match skipWs r with
      | ']' :: r2 => some (.cons v .nil, r2)
      | ',' :: r2 =>
        match parseElems fuel (skipWs r2) with
        | some (vs, r3) => some (.cons v vs, r3)
        | none => none
      | _ => none

/-- One-or-more object members, starting at the opening quote of a key
(`json.decoder.JSONObject`; the empty object is handled in `parseVal`). -/
def parseFields : Nat → List Char → Option (JsonFields × List Char)
  | 0, _ => none
  | fuel + 1, s =>
    match s with
    | '"' :: r =>
      match parseStrBody r with
      | none => none
      | some (k, r1) =>
        match skipWs r1 with
        | ':' :: r2 =>
          match parseVal fuel (skipWs r2) with
          | none => none
          | some (v, r3) =>
            match skipWs r3 with
            | '}' :: r4 => some (.cons k v .nil, r4)
            | ',' :: r4 =>
              match parseFields fuel (skipWs r4) with
              | some (fs, r5) => some (.cons k v fs, r5)
              | none => none
            | _ => none
        | _ => none
    | _ => none

end

/-- Model of `json.loads`: skip leading whitespace, parse one value, require
only whitespace afterwards; `none` models a raised `JSONDecodeError`. -/
def jsonLoads (s : List Char) : Option Json :=
  match parseVal (s.length + 1) (skipWs s) with
  | some (v, r) => if skipWs r = [] then some v else none
  | none => none

/-- Decidable equality for `Except`, so that concrete runs of the patcher
can be checked by `decide`. -/
instance instDecEqExcept {ε α : Type} [DecidableEq ε] [DecidableEq α] :
    DecidableEq (Except ε α)
  | .error e, .error f =>
    if h : e = f then .isTrue (by rw [h]) else .isFalse (by simp [h])
  | .error _, .ok _ => .isFalse (fun h => Except.noConfusion h)
  | .ok _, .error _ => .isFalse (fun h => Except.noConfusion h)
  | .ok a, .ok b =>
    if h : a = b then .isTrue (by rw [h]) else .isFalse (by simp [h])

/-- The marker literal of `_extract_menu_json` (`server.py:37`). -/
def markerStr : List Char := "export const menuData =".toList

/-- The error taxonomy of `_extract_menu_json`.  In `server.py` all four are
raised as `ValueError`s (with distinct messages; `json.JSONDecodeError` is a
`ValueError`), distinguished here by constructor: the two `str.index`
failures (marker missing, `server.py:41`; no `{` after it, `server.py:47`),
the unbalanced-brace failure (`server.py:62`), and a `json.loads` failure
(`server.py:65`). -/
inductive ExtractErr where
  | markerNotFound : ExtractErr
  | braceNotFound : ExtractErr
  | malformed : ExtractErr
  | parseError : ExtractErr
deriving DecidableEq

/-- The depth-counting loop of `_extract_menu_json` (`server.py:49-59`),
run on `text[brace_start:]`: depth goes up at `{`, down at `}`, and the scan
stops just after the `}` that brings it to zero.  `i` is the running
position; the caller starts it at `0` and adds `brace_start` back.  Returns
`none` when the loop ends without depth returning to zero (`end_idx is
None`, `server.py:61`). -/
def scanDepth : List Char → Int → Nat → Option Nat
  | [], _, _ => none
  | c :: rest, depth, i =>
    if c = '{' then scanDepth rest (depth + 1) (i + 1)
    else if c = '}' then
      if depth - 1 = 0 then some (i + 1)
      else scanDepth rest (depth - 1) (i + 1)
    else scanDepth rest depth (i + 1)

/-- Model of `_extract_menu_json` (`server.py:28-66`): find the marker, find
the first `{` at or after it, depth-scan to the matching `}`, and parse the
spanned substring with `json.loads`.  Returns the parsed data with the span's
start offset and exclusive end offset. -/
def extractMenuJson (text : List Char) : Except ExtractErr (Json × Nat × Nat) :=
  match firstIdx markerStr text with
  | none => .error .markerNotFound
  | some markerIdx =>
    match idxFrom text ['{'] markerIdx with
    | none => .error .braceNotFound
    | some braceStart =>
      match scanDepth (text.drop braceStart) 0 0 with
      | none => .error .malformed
      | some rel =>
        let endIdx := braceStart + rel
        let jsonStr := (text.drop braceStart).take rel
        match jsonLoads jsonStr with
        | none => .error .parseError
        | some data => .ok (data, braceStart, endIdx)

/-- Model of `write_menu` (`server.py:79-89`) on the file's text: locate the
current object's span with `_extract_menu_json` and splice in the
pretty-printed serialization of `new_menu`; an extraction error propagates
(the model leaves out the file-existence guard, which is about the
filesystem, not the text transformation). -/
def writeMenu (text : List Char) (newMenu : Json) : Except ExtractErr (List Char) :=
  match extractMenuJson text with
  | .error e => .error e
  | .ok (_, start, stop) =>
    .ok (text.take start ++ dumpVal newMenu 0 ++ text.drop stop)

/-- The reservation file (`reservations.json`): either absent or holding a
decoded text. -/
inductive FileState where
  | absent : FileState
  | content (text : List Char) : FileState
deriving DecidableEq

/-- Convert the array payload of a parsed `Json` into a `List` of records. -/
def toListJ : JsonList → List Json
  | .nil => []
  | .cons h t => h :: toListJ t

/-- Inverse of `toListJ`, for building the array handed to `json.dumps`. -/
def ofListJ : List Json → JsonList
  | [] => .nil
  | h :: t => .cons h (ofListJ t)

/-- Model of `load_reservations` (`server.py:99-110`): an absent file, a
file that fails to parse, and a file whose parse is not a list all yield
`[]`; a parsed JSON array yields its elements. -/
def loadReservations : FileState → List Json
  | .absent => []
  | .content raw =>
    match jsonLoads raw with
    | some (.arr xs) => toListJ xs
    | _ => []

/-- Model of `save_reservations` (`server.py:113-118`): overwrite the file
with the pretty-printed JSON array of all records. -/
def saveReservations (data : List Json) : FileState :=
  .content (dumpVal (.arr (ofListJ data)) 0)

/-- Lookup in an ordered field list with the semantics of a Python dict
built by `json.loads`: a later duplicate key overrides an earlier one, so
the last binding wins. -/
def fieldsGet : JsonFields → List Char → Option Json
  | .nil, _ => none
  | .cons k v t, key =>
    match fieldsGet t key with
    | some r => some r
    | none => if k = key then some v else none

/-- Model of `r.get("id")` on a loaded record (`server.py:283`).  A record
that is not a JSON object yields `none` here; in Python `r.get` would raise
`AttributeError` on such a record, so theorems that depend on this lookup
carry an all-records-are-objects hypothesis. -/
def getId : Json → Option Json
  | .obj fs => fieldsGet fs ("id".toList)
  | _ => none

/-- Whether a loaded record is a JSON object (a Python dict). -/
def isObjRec : Json → Bool
  | .obj _ => true
  | _ => false

/-- Model of `delete_reservation` (`server.py:276-289`): load, keep every
record whose `id` differs from `res_id`, and save only when something was
dropped.  The `Bool` is `true` when a record was removed; `false` models the
`HTTPException(404)` branch, which leaves the file untouched. -/
def deleteReservation (resId : List Char) (st : FileState) : Bool × FileState :=
  let data := loadReservations st
  let newData := data.filter (fun r => !(getId r = some (.str resId) : Bool))
  if newData.length = data.length then (false, st)
  else (true, saveReservations newData)

/-- The validated body of `POST /api/reservations` (`ReservationCreate`,
`server.py:153-170`): pydantic guarantees these fields and types. -/
structure ReservationInput where
  name : List Char
  phone : Option (List Char)
  people : Int
  date : List Char
  time : List Char
  type : List Char
  note : Option (List Char)
deriving DecidableEq

/-- An optional text field as serialized by `model_dump` (`None` → `null`). -/
def optStr : Option (List Char) → Json
  | none => .null
  | some s => .str s

/-- The dict written for a new reservation (`server.py:264-269`):
`model_dump` of the `Reservation`, in pydantic field order, with
`created_at` replaced by its `isoformat()` string.  The server-generated
`id` (a `uuid4` string) and `created_at` arrive here as parameters. -/
def mkReservationDoc (inp : ReservationInput) (genId createdAt : List Char) : Json :=
  .obj (.cons ("name".toList) (.str inp.name)
    (.cons ("phone".toList) (optStr inp.phone)
      (.cons ("people".toList) (.num inp.people)
        (.cons ("date".toList) (.str inp.date)
          (.cons ("time".toList) (.str inp.time)
            (.cons ("type".toList) (.str inp.type)
              (.cons ("note".toList) (optStr inp.note)
                (.cons ("id".toList) (.str genId)
                  (.cons ("created_at".toList) (.str createdAt) .nil)))))))))

/-- Model of `create_reservation` (`server.py:258-273`): load, append the
new record at the end, save. -/
def createReservation (inp : ReservationInput) (genId createdAt : List Char)
    (st : FileState) : FileState :=
  saveReservations (loadReservations st ++ [mkReservationDoc inp genId createdAt])

/-- One store operation, as performed by the two mutating endpoints. -/
inductive StoreOp where
  | create (inp : ReservationInput) (genId createdAt : List Char) : StoreOp
  | remove (resId : List Char) : StoreOp

/-- Apply one operation to the file state (the removal's `Bool` result is
not needed for the order-preservation invariant). -/
def applyOp : StoreOp → FileState → FileState
  | .create inp genId createdAt, st => createReservation inp genId createdAt st
  | .remove resId, st => (deleteReservation resId st).2

/-- Apply a sequence of operations, oldest first. -/
def applyOps : List StoreOp → FileState → FileState
  | [], st => st
  | op :: ops, st => applyOps ops (applyOp op st)

/-- The records inserted by a sequence of operations, in insertion order. -/
def newDocs : List StoreOp → List Json
  | [] => []
  | .create inp genId createdAt :: ops => mkReservationDoc inp genId createdAt :: newDocs ops
  | .remove _ :: ops => newDocs ops

/-! ### Substring search: semantic characterization of `firstIdx` -/

/-- The pattern `pat` occurs in `s` at position `i`. -/
def occursAt (pat s : List Char) (i : Nat) : Prop := listIsPref pat (s.drop i) = true

theorem listIsPref_iff_take {p s : List Char} :
    listIsPref p s = true ↔ s.take p.length = p := by
  induction p generalizing s with
  | nil => simp [listIsPref]
  | cons a as ih =>
    cases s with
    | nil => simp [listIsPref]
    | cons b bs =>
      simp only [listIsPref, List.take, List.length_cons, Bool.and_eq_true,
        decide_eq_true_eq, List.cons.injEq, ih]
      constructor
      · rintro ⟨h1, h2⟩; exact ⟨h1.symm, h2⟩
      · rintro ⟨h1, h2⟩; exact ⟨h1.symm, h2⟩

theorem listIsPref_length {p s : List Char} (h : listIsPref p s = true) :
    p.length ≤ s.length := by
  have := listIsPref_iff_take.mp h
  have hl : (s.take p.length).length = p.length := by rw [this]
  simp only [List.length_take] at hl
  omega

theorem listIsPref_append {p s t : List Char} (hp : p.length ≤ s.length) :
    listIsPref p (s ++ t) = listIsPref p s := by
  rcases h1 : listIsPref p s with _ | _
  · rcases h2 : listIsPref p (s ++ t) with _ | _
    · rfl
    · exfalso
      have := listIsPref_iff_take.mp h2
      rw [List.take_append_of_le_length hp] at this
      exact absurd (listIsPref_iff_take.mpr this) (by simp [h1])
  · exact listIsPref_iff_take.mpr
      (by rw [List.take_append_of_le_length hp]; exact listIsPref_iff_take.mp h1)

theorem firstIdx_none_iff {pat s : List Char} :
    firstIdx pat s = none ↔ ∀ i, ¬ occursAt pat s i := by
  induction s with
  | nil =>
    simp only [firstIdx, occursAt]
    constructor
    · intro h i
      simp only [List.drop_nil]
      intro hc
      rw [hc] at h; simp at h
    · intro h
      have := h 0
      simp only [List.drop_nil] at this
      simp [this]
  | cons c r ih =>
    simp only [firstIdx]
    rcases hp : listIsPref pat (c :: r) with _ | _
    · simp only [Bool.false_eq_true, if_false, Option.map_eq_none']
      rw [ih]
      constructor
      · intro h i
        cases i with
        | zero => simpa [occursAt] using hp
        | succ j => exact fun hc => h j hc
      · intro h j
        exact fun hc => h (j + 1) hc
    · simp only [if_true]
      constructor
      · intro h; exact absurd h (by simp)
      · intro h
        exact absurd hp (by simpa [occursAt] using h 0)

theorem firstIdx_some_iff {pat s : List Char} {i : Nat} :
    firstIdx pat s = some i ↔ occursAt pat s i ∧ ∀ j, j < i → ¬ occursAt pat s j := by
  induction s generalizing i with
  | nil =>
    simp only [firstIdx]
    rcases hp : listIsPref pat [] with _ | _
    · simp only [Bool.false_eq_true, if_false]
      constructor
      · intro h; simp at h
      · rintro ⟨h, -⟩
        simp only [occursAt, List.drop_nil] at h
        rw [h] at hp; simp at hp
    · simp only [if_true, Option.some.injEq]
      constructor
      · rintro rfl
        exact ⟨by simpa [occursAt] using hp, by omega⟩
      · rintro ⟨-, hmin⟩
        by_contra hne
        exact hmin 0 (by omega) (by simpa [occursAt] using hp)
  | cons c r ih =>
    simp only [firstIdx]
    rcases hp : listIsPref pat (c :: r) with _ | _
    · simp only [Bool.false_eq_true, if_false, Option.map_eq_some']
      constructor
      · rintro ⟨j, hj, rfl⟩
        obtain ⟨ho, hmin⟩ := ih.mp hj
        refine ⟨ho, ?_⟩
        intro q hq
        cases q with
        | zero => simpa [occursAt] using hp
        | succ q' => exact hmin q' (by omega)
      · rintro ⟨ho, hmin⟩
        cases i with
        | zero => exact absurd (by simpa [occursAt] using ho) (by simp [hp])
        | succ i' =>
          refine ⟨i', ih.mpr ⟨ho, ?_⟩, rfl⟩
          intro q hq
          exact hmin (q + 1) (by omega)
    · simp only [if_true, Option.some.injEq]
      constructor
      · rintro rfl
        exact ⟨by simpa [occursAt] using hp, by omega⟩
      · rintro ⟨-, hmin⟩
        by_contra hne
        exact hmin 0 (by omega) (by simpa [occursAt] using hp)

theorem occursAt_drop {pat s : List Char} {start j : Nat} (h : start ≤ j) :
    occursAt pat (s.drop start) (j - start) ↔ occursAt pat s j := by
  simp only [occursAt, List.drop_drop]
  rw [(by omega : start + (j - start) = j)]

theorem idxFrom_some_iff {s pat : List Char} {start i : Nat} :
    idxFrom s pat start = some i ↔
      start ≤ i ∧ occursAt pat s i ∧ ∀ j, start ≤ j → j < i → ¬ occursAt pat s j := by
  simp only [idxFrom, Option.map_eq_some']
  constructor
  · rintro ⟨k, hk, rfl⟩
    obtain ⟨ho, hmin⟩ := firstIdx_some_iff.mp hk
    refine ⟨by omega, ?_, ?_⟩
    · have := (@occursAt_drop pat s start (k + start) (by omega)).mp
      rw [(by omega : k + start - start = k)] at this
      exact this ho
    · intro j hj1 hj2 hc
      exact hmin (j - start) (by omega) ((occursAt_drop hj1).mpr hc)
  · rintro ⟨hle, ho, hmin⟩
    refine ⟨i - start, firstIdx_some_iff.mpr ⟨(occursAt_drop hle).mpr ho, ?_⟩, by omega⟩
    intro q hq hc
    have := (@occursAt_drop pat s start (q + start) (by omega)).mp
    rw [(by omega : q + start - start = q)] at this
    exact hmin (q + start) (by omega) (by omega) (this hc)

theorem idxFrom_none_iff {s pat : List Char} {start : Nat} :
    idxFrom s pat start = none ↔ ∀ j, start ≤ j → ¬ occursAt pat s j := by
  simp only [idxFrom, Option.map_eq_none', firstIdx_none_iff]
  constructor
  · intro h j hj hc
    exact h (j - start) ((occursAt_drop hj).mpr hc)
  · intro h j hc
    have := (@occursAt_drop pat s start (j + start) (by omega)).mp
    rw [(by omega : j + start - start = j)] at this
    exact h (j + start) (by omega) (this hc)

/-! ### The brace scan: composition lemmas and semantic characterization -/

/-- Contribution of one character to the brace depth. -/
def balDelta (c : Char) : Int := if c = '{' then 1 else if c = '}' then -1 else 0

/-- Brace balance of a string: occurrences of `{` minus occurrences of `}`. -/
def bal : List Char → Int
  | [] => 0
  | c :: r => balDelta c + bal r

theorem bal_append (as bs : List Char) : bal (as ++ bs) = bal as + bal bs := by
  induction as with
  | nil => simp [bal]
  | cons c r ih => simp [bal, ih]; omega

theorem balDelta_open : balDelta '{' = 1 := rfl

theorem balDelta_close : balDelta '}' = -1 := rfl

theorem balDelta_eq_zero {c : Char} (h1 : ¬ c = '{') (h2 : ¬ c = '}') :
    balDelta c = 0 := by
  simp [balDelta, h1, h2]

theorem scanDepth_cons_open {r : List Char} {d : Int} {i : Nat} :
    scanDepth ('{' :: r) d i = scanDepth r (d + 1) (i + 1) := by
  simp [scanDepth]

theorem scanDepth_cons_close_stop {r : List Char} {d : Int} {i : Nat}
    (hd : d - 1 = 0) : scanDepth ('}' :: r) d i = some (i + 1) := by
  simp [scanDepth, hd]

theorem scanDepth_cons_close_go {r : List Char} {d : Int} {i : Nat}
    (hd : ¬ d - 1 = 0) : scanDepth ('}' :: r) d i = scanDepth r (d - 1) (i + 1) := by
  simp [scanDepth, hd]

theorem scanDepth_cons_other {r : List Char} {d : Int} {i : Nat} {c : Char}
    (h1 : ¬ c = '{') (h2 : ¬ c = '}') :
    scanDepth (c :: r) d i = scanDepth r d (i + 1) := by
  simp [scanDepth, h1, h2]

theorem scanDepth_shift (xs : List Char) (d : Int) (i : Nat) :
    scanDepth xs d i = (scanDepth xs d 0).map (· + i) := by
  induction xs generalizing d i with
  | nil => simp [scanDepth]
  | cons c r ih =>
    by_cases h1 : c = '{'
    · subst h1
      rw [scanDepth_cons_open, scanDepth_cons_open, ih _ (i + 1), ih _ 1]
      cases scanDepth r (d + 1) 0 with
      | none => simp
      | some q => simp only [Option.map_some', Option.some.injEq]; omega
    · by_cases h2 : c = '}'
      · subst h2
        by_cases h3 : d - 1 = 0
        · rw [scanDepth_cons_close_stop h3, scanDepth_cons_close_stop h3]
          simp only [Option.map_some', Option.some.injEq]
          omega
        · rw [scanDepth_cons_close_go h3, scanDepth_cons_close_go h3,
            ih _ (i + 1), ih _ 1]
          cases scanDepth r (d - 1) 0 with
          | none => simp
          | some q => simp only [Option.map_some', Option.some.injEq]; omega
      · rw [scanDepth_cons_other h1 h2, scanDepth_cons_other h1 h2,
          ih _ (i + 1), ih _ 1]
        cases scanDepth r d 0 with
        | none => simp
        | some q => simp only [Option.map_some', Option.some.injEq]; omega

theorem scanDepth_append_some {as : List Char} {d : Int} {i p : Nat}
    (h : scanDepth as d i = some p) (bs : List Char) :
    scanDepth (as ++ bs) d i = some p := by
  induction as generalizing d i with
  | nil => simp [scanDepth] at h
  | cons c r ih =>
    rw [List.cons_append]
    by_cases h1 : c = '{'
    · subst h1
      rw [scanDepth_cons_open] at h ⊢
      exact ih h
    · by_cases h2 : c = '}'
      · subst h2
        by_cases h3 : d - 1 = 0
        · rw [scanDepth_cons_close_stop h3] at h ⊢
          exact h
        · rw [scanDepth_cons_close_go h3] at h ⊢
          exact ih h
      · rw [scanDepth_cons_other h1 h2] at h ⊢
        exact ih h

theorem scanDepth_append_none {as : List Char} {d : Int} {i : Nat}
    (h : scanDepth as d i = none) (bs : List Char) :
    scanDepth (as ++ bs) d i = scanDepth bs (d + bal as) (i + as.length) := by
  induction as generalizing d i with
  | nil => simp [bal]
  | cons c r ih =>
    rw [List.cons_append]
    by_cases h1 : c = '{'
    · subst h1
      rw [scanDepth_cons_open] at h ⊢
      rw [ih h, bal, balDelta_open, (by omega : d + 1 + bal r = d + (1 + bal r)),
        List.length_cons, (by omega : i + 1 + r.length = i + (r.length + 1))]
    · by_cases h2 : c = '}'
      · subst h2
        by_cases h3 : d - 1 = 0
        · rw [scanDepth_cons_close_stop h3] at h
          exact absurd h (by simp)
        · rw [scanDepth_cons_close_go h3] at h ⊢
          rw [ih h, bal, balDelta_close, (by omega : d - 1 + bal r = d + (-1 + bal r)),
            List.length_cons, (by omega : i + 1 + r.length = i + (r.length + 1))]
      · rw [scanDepth_cons_other h1 h2] at h ⊢
        rw [ih h, bal, balDelta_eq_zero h1 h2,
          (by omega : d + bal r = d + (0 + bal r)),
          List.length_cons, (by omega : i + 1 + r.length = i + (r.length + 1))]

theorem scanDepth_neutral {as : List Char} (h : ∀ c ∈ as, balDelta c = 0)
    (d : Int) (i : Nat) : scanDepth as d i = none := by
  induction as generalizing d i with
  | nil => rfl
  | cons c r ih =>
    have hc := h c (by simp)
    have hne1 : ¬ c = '{' := by
      intro he; rw [he, balDelta_open] at hc; omega
    have hne2 : ¬ c = '}' := by
      intro he; rw [he, balDelta_close] at hc; omega
    rw [scanDepth_cons_other hne1 hne2]
    exact ih (fun x hx => h x (by simp [hx])) _ _

theorem bal_neutral {as : List Char} (h : ∀ c ∈ as, balDelta c = 0) : bal as = 0 := by
  induction as with
  | nil => rfl
  | cons c r ih =>
    rw [bal, h c (by simp), ih (fun x hx => h x (by simp [hx]))]
    omega

/-- The scan of `xs` from depth `d` may stop just after position `p-1`: that
position holds a `}` and the running depth there returns to zero.  This is
the semantic content of the loop of `server.py:52-59`, stated through the
independent balance count `bal`. -/
def closesAt (xs : List Char) (d : Int) (p : Nat) : Prop :=
  1 ≤ p ∧ p ≤ xs.length ∧ xs[p-1]? = some '}' ∧ d + bal (xs.take p) = 0

theorem closesAt_zero {xs : List Char} {d : Int} : ¬ closesAt xs d 0 := by
  rintro ⟨h, -, -, -⟩; omega

theorem closesAt_cons {c : Char} {r : List Char} {d : Int} {p : Nat} :
    closesAt (c :: r) d (p + 1) ↔
      ((p = 0 ∧ c = '}' ∧ d + balDelta c = 0) ∨ (1 ≤ p ∧ closesAt r (d + balDelta c) p)) := by
  cases p with
  | zero =>
    simp only [closesAt, List.length_cons, (by omega : 1 - 1 = 0),
      List.getElem?_cons_zero, List.take_succ_cons, List.take_zero, bal,
      Option.some.injEq]
    constructor
    · rintro ⟨-, -, h3, h4⟩
      exact Or.inl ⟨by trivial, h3, by omega⟩
    · rintro (⟨-, h3, h4⟩ | ⟨h, -⟩)
      · exact ⟨by omega, by omega, h3, by omega⟩
      · omega
  | succ q =>
    simp only [closesAt, List.length_cons, List.take_succ_cons, bal,
      (by omega : q + 1 + 1 - 1 = q + 1), List.getElem?_cons_succ,
      (by omega : q + 1 - 1 = q)]
    constructor
    · rintro ⟨-, h2, h3, h4⟩
      exact Or.inr ⟨by omega, by omega, by omega, h3, by omega⟩
    · rintro (⟨h, -⟩ | ⟨-, -, h2, h3, h4⟩)
      · omega
      · exact ⟨by omega, by omega, h3, by omega⟩

theorem all_not_closesAt_cons {c : Char} {r : List Char} {d : Int} :
    (∀ p, ¬ closesAt (c :: r) d p) ↔
      (¬ (c = '}' ∧ d + balDelta c = 0) ∧ ∀ p, ¬ closesAt r (d + balDelta c) p) := by
  constructor
  · intro h
    refine ⟨fun hc => h 1 (closesAt_cons.mpr (Or.inl ⟨rfl, hc.1, hc.2⟩)), ?_⟩
    intro p
    cases p with
    | zero => exact closesAt_zero
    | succ q =>
      intro hc
      exact h (q + 2) (closesAt_cons.mpr (Or.inr ⟨by omega, hc⟩))
  · rintro ⟨h1, h2⟩ p
    cases p with
    | zero => exact closesAt_zero
    | succ q =>
      intro hc
      rcases closesAt_cons.mp hc with ⟨-, hl⟩ | ⟨-, hr⟩
      · exact h1 hl
      · exact h2 _ hr

theorem scanDepth_none_iff {xs : List Char} {d : Int} :
    scanDepth xs d 0 = none ↔ ∀ p, ¬ closesAt xs d p := by
  induction xs generalizing d with
  | nil =>
    constructor
    · rintro - p ⟨h1, h2, -, -⟩
      simp only [List.length_nil] at h2
      omega
    · intro
      rfl
  | cons c r ih =>
    rw [all_not_closesAt_cons]
    by_cases h1 : c = '{'
    · subst h1
      rw [scanDepth_cons_open, scanDepth_shift _ _ 1, Option.map_eq_none', ih,
        balDelta_open]
      constructor
      · intro h
        exact ⟨by rintro ⟨hx, -⟩; exact absurd hx (by decide), h⟩
      · rintro ⟨-, h⟩; exact h
    · by_cases h2 : c = '}'
      · subst h2
        rw [balDelta_close]
        by_cases h3 : d - 1 = 0
        · rw [scanDepth_cons_close_stop h3]
          constructor
          · intro h; exact absurd h (by simp)
          · rintro ⟨hne, -⟩
            exact absurd ⟨rfl, by omega⟩ hne
        · rw [scanDepth_cons_close_go h3, scanDepth_shift _ _ 1, Option.map_eq_none',
            ih, (by omega : d + (-1 : Int) = d - 1)]
          constructor
          · intro h
            exact ⟨by rintro ⟨-, hx⟩; exact h3 (by omega), h⟩
          · rintro ⟨-, h⟩; exact h
      · rw [scanDepth_cons_other h1 h2, scanDepth_shift _ _ 1, Option.map_eq_none',
          ih, balDelta_eq_zero h1 h2, (by omega : d + (0 : Int) = d)]
        constructor
        · intro h
          exact ⟨by rintro ⟨hx, -⟩; exact h2 hx, h⟩
        · rintro ⟨-, h⟩; exact h

theorem not_closesAt_lt_of_cons {c : Char} {r : List Char} {e : Int} {p : Nat}
    (hnot1 : ¬ (c = '}' ∧ e + balDelta c = 0))
    (hmin : ∀ q', q' < p → ¬ closesAt r (e + balDelta c) q') :
    ∀ q, q < p + 1 → ¬ closesAt (c :: r) e q := by
  intro q hq
  cases q with
  | zero => exact closesAt_zero
  | succ q' =>
    intro hcq
    rcases closesAt_cons.mp hcq with ⟨-, hc, he⟩ | ⟨-, hr⟩
    · exact hnot1 ⟨hc, he⟩
    · exact hmin q' (by omega) hr

theorem closesAt_min_tail {c : Char} {r : List Char} {e : Int} {p : Nat}
    (hmin : ∀ q, q < p + 1 → ¬ closesAt (c :: r) e q) :
    ∀ q', q' < p → ¬ closesAt r (e + balDelta c) q' := by
  intro q' hq' hcq
  cases q' with
  | zero => exact closesAt_zero hcq
  | succ n =>
    exact hmin (n + 2) (by omega) (closesAt_cons.mpr (Or.inr ⟨by omega, hcq⟩))

theorem scanDepth_some_iff {xs : List Char} {d : Int} {p : Nat} :
    scanDepth xs d 0 = some p ↔
      closesAt xs d p ∧ ∀ q, q < p → ¬ closesAt xs d q := by
  induction xs generalizing d p with
  | nil =>
    constructor
    · intro h; simp [scanDepth] at h
    · rintro ⟨⟨h1, h2, -, -⟩, -⟩
      simp only [List.length_nil] at h2
      omega
  | cons c r ih =>
    have succ_of_closes : ∀ {ys : List Char} {e : Int} {q : Nat},
        closesAt ys e q → 1 ≤ q := by
      rintro ys e q ⟨h, -, -, -⟩; exact h
    by_cases h1 : c = '{'
    · subst h1
      rw [scanDepth_cons_open, scanDepth_shift _ _ 1, Option.map_eq_some']
      constructor
      · rintro ⟨p', hp', rfl⟩
        obtain ⟨hcl, hmin⟩ := ih.mp hp'
        refine ⟨closesAt_cons.mpr (Or.inr ⟨succ_of_closes hcl, by rwa [balDelta_open]⟩), ?_⟩
        exact not_closesAt_lt_of_cons
          (by rintro ⟨hx, -⟩; exact absurd hx (by decide))
          (by rw [balDelta_open]; intro q' hq'; exact hmin q' (by omega))
      · rintro ⟨hcl, hmin⟩
        obtain ⟨q, rfl⟩ : ∃ q, p = q + 1 := ⟨p - 1, by have := succ_of_closes hcl; omega⟩
        rcases closesAt_cons.mp hcl with ⟨-, hc, -⟩ | ⟨hq1, hr⟩
        · exact absurd hc (by decide)
        · rw [balDelta_open] at hr
          refine ⟨q, ih.mpr ⟨hr, ?_⟩, by omega⟩
          have := closesAt_min_tail hmin
          rwa [balDelta_open] at this
    · by_cases h2 : c = '}'
      · subst h2
        by_cases h3 : d - 1 = 0
        · rw [scanDepth_cons_close_stop h3]
          have hcl1 : closesAt ('}' :: r) d 1 :=
            closesAt_cons.mpr (Or.inl ⟨rfl, rfl, by rw [balDelta_close]; omega⟩)
          constructor
          · intro h
            simp only [Option.some.injEq] at h
            subst h
            refine ⟨hcl1, ?_⟩
            intro q hq
            have : q = 0 := by omega
            subst this
            exact closesAt_zero
          · rintro ⟨hcl, hmin⟩
            have h1p := succ_of_closes hcl
            by_contra hne
            have : 1 < p := by
              rcases Nat.lt_or_ge 1 p with h | h
              · exact h
              · have : p = 1 := by omega
                subst this
                simp at hne
            exact hmin 1 this hcl1
        · rw [scanDepth_cons_close_go h3, scanDepth_shift _ _ 1, Option.map_eq_some']
          have heq : d + balDelta '}' = d - 1 := by rw [balDelta_close]; omega
          constructor
          · rintro ⟨p', hp', rfl⟩
            obtain ⟨hcl, hmin⟩ := ih.mp hp'
            refine ⟨closesAt_cons.mpr (Or.inr ⟨succ_of_closes hcl, by rwa [heq]⟩), ?_⟩
            exact not_closesAt_lt_of_cons
              (by rintro ⟨-, hx⟩; rw [heq] at hx; exact h3 hx)
              (by rw [heq]; intro q' hq'; exact hmin q' (by omega))
          · rintro ⟨hcl, hmin⟩
            obtain ⟨q, rfl⟩ : ∃ q, p = q + 1 := ⟨p - 1, by have := succ_of_closes hcl; omega⟩
            rcases closesAt_cons.mp hcl with ⟨-, -, he⟩ | ⟨hq1, hr⟩
            · rw [heq] at he; exact absurd he h3
            · rw [heq] at hr
              refine ⟨q, ih.mpr ⟨hr, ?_⟩, by omega⟩
              have := closesAt_min_tail hmin
              rwa [heq] at this
      · rw [scanDepth_cons_other h1 h2, scanDepth_shift _ _ 1, Option.map_eq_some']
        have heq : d + balDelta c = d := by rw [balDelta_eq_zero h1 h2]; omega
        constructor
        · rintro ⟨p', hp', rfl⟩
          obtain ⟨hcl, hmin⟩ := ih.mp hp'
          refine ⟨closesAt_cons.mpr (Or.inr ⟨succ_of_closes hcl, by rwa [heq]⟩), ?_⟩
          exact not_closesAt_lt_of_cons
            (by rintro ⟨hx, -⟩; exact h2 hx)
            (by rw [heq]; intro q' hq'; exact hmin q' (by omega))
        · rintro ⟨hcl, hmin⟩
          obtain ⟨q, rfl⟩ : ∃ q, p = q + 1 := ⟨p - 1, by have := succ_of_closes hcl; omega⟩
          rcases closesAt_cons.mp hcl with ⟨-, hc, -⟩ | ⟨hq1, hr⟩
          · exact absurd hc h2
          · rw [heq] at hr
            refine ⟨q, ih.mpr ⟨hr, ?_⟩, by omega⟩
            have := closesAt_min_tail hmin
            rwa [heq] at this

/-! ### Decimal digits: printing and reparsing -/

theorem digitChar_isDig : ∀ d : Nat, d < 10 → isDig (digitChar d) = true := by decide

theorem digitChar_toNat : ∀ d : Nat, d < 10 → (digitChar d).toNat = 48 + d := by decide

theorem digitChar_ne_zero : ∀ d : Nat, 1 ≤ d → d < 10 → digitChar d ≠ '0' := by decide

theorem natDigitsRevAux_irrel : ∀ n f1 f2, n < f1 → n < f2 →
    natDigitsRevAux f1 n = natDigitsRevAux f2 n := by
  intro n
  induction n using Nat.strong_induction_on with
  | _ n ih =>
    intro f1 f2 h1 h2
    obtain ⟨a, rfl⟩ : ∃ a, f1 = a + 1 := ⟨f1 - 1, by omega⟩
    obtain ⟨b, rfl⟩ : ∃ b, f2 = b + 1 := ⟨f2 - 1, by omega⟩
    by_cases h10 : n < 10
    · simp [natDigitsRevAux, h10]
    · simp only [natDigitsRevAux, h10, if_false]
      rw [ih (n / 10) (Nat.div_lt_self (by omega) (by omega)) a b (by omega) (by omega)]

theorem natDigitsRev_lt {n : Nat} (h : n < 10) : natDigitsRev n = [digitChar n] := by
  rw [natDigitsRev, natDigitsRevAux]
  simp [h]

theorem natDigitsRev_ge {n : Nat} (h : ¬ n < 10) :
    natDigitsRev n = digitChar (n % 10) :: natDigitsRev (n / 10) := by
  rw [natDigitsRev, natDigitsRevAux]
  simp only [h, if_false]
  rw [natDigitsRevAux_irrel (n / 10) n (n / 10 + 1)
    (Nat.div_lt_self (by omega) (by omega)) (by omega)]
  rfl

theorem natDigitsRev_ne_nil (n : Nat) : natDigitsRev n ≠ [] := by
  by_cases h : n < 10
  · rw [natDigitsRev_lt h]; simp
  · rw [natDigitsRev_ge h]; simp

theorem natDigitsRev_digits (n : Nat) : ∀ c ∈ natDigitsRev n, isDig c = true := by
  induction n using Nat.strong_induction_on with
  | _ n ih =>
    by_cases h : n < 10
    · rw [natDigitsRev_lt h]
      intro c hc
      simp only [List.mem_singleton] at hc
      subst hc
      exact digitChar_isDig n h
    · rw [natDigitsRev_ge h]
      intro c hc
      rcases List.mem_cons.mp hc with rfl | hmem
      · exact digitChar_isDig _ (Nat.mod_lt _ (by omega))
      · exact ih (n / 10) (Nat.div_lt_self (by omega) (by omega)) c hmem

theorem natChars_digits (n : Nat) : ∀ c ∈ natChars n, isDig c = true := by
  intro c hc
  exact natDigitsRev_digits n c (List.mem_reverse.mp hc)

theorem natChars_ne_nil (n : Nat) : natChars n ≠ [] := by
  simp only [natChars, ne_eq, List.reverse_eq_nil_iff]
  exact natDigitsRev_ne_nil n

theorem natChars_head_ne_zero : ∀ n : Nat, 1 ≤ n →
    ∀ c, (natChars n).head? = some c → c ≠ '0' := by
  intro n
  induction n using Nat.strong_induction_on with
  | _ n ih =>
    intro h c hc
    by_cases h10 : n < 10
    · rw [natChars, natDigitsRev_lt h10] at hc
      simp only [List.reverse_singleton, List.head?_cons, Option.some.injEq] at hc
      subst hc
      exact digitChar_ne_zero n h h10
    · rw [natChars, natDigitsRev_ge h10, List.reverse_cons, ← natChars] at hc
      obtain ⟨d, ds, hnc⟩ : ∃ d ds, natChars (n / 10) = d :: ds := by
        cases hx : natChars (n / 10) with
        | nil => exact absurd hx (natChars_ne_nil (n / 10))
        | cons d ds => exact ⟨d, ds, rfl⟩
      rw [hnc, List.cons_append, List.head?_cons] at hc
      apply ih (n / 10) (Nat.div_lt_self (by omega) (by omega)) (by omega)
      rw [hnc, List.head?_cons]
      exact hc

theorem digitsVal_append_last (ds : List Char) (c : Char) :
    digitsVal (ds ++ [c]) = 10 * digitsVal ds + (c.toNat - 48) := by
  simp [digitsVal, List.foldl_append]

theorem digitsVal_natChars (n : Nat) : digitsVal (natChars n) = n := by
  induction n using Nat.strong_induction_on with
  | _ n ih =>
    by_cases h : n < 10
    · rw [natChars, natDigitsRev_lt h]
      simp [digitsVal, digitChar_toNat n h]
    · rw [natChars, natDigitsRev_ge h, List.reverse_cons, ← natChars,
        digitsVal_append_last, ih (n / 10) (Nat.div_lt_self (by omega) (by omega)),
        digitChar_toNat _ (Nat.mod_lt _ (by omega))]
      omega

/-- Head condition under which a maximal digit scan stops exactly at `rest`
and the integer parse is not rejected as a float: `rest` does not begin with
a digit, `.`, `e`, or `E`. -/
def numSafe : List Char → Bool
  | [] => true
  | c :: _ => !(isDig c || c = '.' || c = 'e' || c = 'E')

theorem spanDigits_exact {ds rest : List Char} (hds : ∀ c ∈ ds, isDig c = true)
    (hrest : ∀ c, rest.head? = some c → isDig c = false) :
    spanDigits (ds ++ rest) = (ds, rest) := by
  induction ds with
  | nil =>
    cases rest with
    | nil => rfl
    | cons c r =>
      have := hrest c rfl
      simp [spanDigits, this]
  | cons d ds ih =>
    have hd := hds d (by simp)
    simp only [List.cons_append, spanDigits, hd, if_true, List.append_eq]
    rw [ih (fun c hc => hds c (by simp [hc]))]

theorem isDig_ne_chars {c : Char} (h : isDig c = true) :
    c ≠ '-' ∧ c ≠ '.' ∧ c ≠ 'e' ∧ c ≠ 'E' := by
  refine ⟨?_, ?_, ?_, ?_⟩ <;> intro he <;> rw [he] at h <;> simp [isDig] at h

theorem parseIntTail_natChars {n : Nat} {rest : List Char}
    (hrest : numSafe rest = true) : parseIntTail (natChars n ++ rest) = some (n, rest) := by
  have hrest' : ∀ c, rest.head? = some c → isDig c = false := by
    intro c hc
    cases rest with
    | nil => simp at hc
    | cons x r =>
      simp only [List.head?_cons, Option.some.injEq] at hc
      subst hc
      simp only [numSafe, Bool.not_eq_true', Bool.or_eq_false_iff] at hrest
      exact hrest.1.1.1
  have hspan := spanDigits_exact (natChars_digits n) hrest'
  obtain ⟨d, ds, hnc⟩ : ∃ d ds, natChars n = d :: ds := by
    cases hx : natChars n with
    | nil => exact absurd hx (natChars_ne_nil n)
    | cons d ds => exact ⟨d, ds, rfl⟩
  have hzero : ¬ (d = '0' ∧ ds ≠ []) := by
    rintro ⟨rfl, hne⟩
    by_cases h1 : 1 ≤ n
    · exact natChars_head_ne_zero n h1 '0' (by rw [hnc]; rfl) rfl
    · have : n = 0 := by omega
      subst this
      rw [natChars, natDigitsRev_lt (by omega)] at hnc
      simp only [List.reverse_singleton, List.cons.injEq] at hnc
      exact hne hnc.2.symm
  have hzero' : (decide (d = '0') && decide (ds ≠ [])) = false := by
    by_cases h1 : d = '0'
    · by_cases h2 : ds = []
      · simp [h1, h2]
      · exact absurd ⟨h1, h2⟩ hzero
    · simp [h1]
  have hval : digitsVal (d :: ds) = n := by rw [← hnc]; exact digitsVal_natChars n
  rw [hnc, List.cons_append] at hspan
  rw [parseIntTail, hnc, List.cons_append, hspan]
  simp only [hzero', Bool.false_eq_true, if_false]
  cases rest with
  | nil => simp [hval]
  | cons x r =>
    simp only [numSafe, Bool.not_eq_true', Bool.or_eq_false_iff,
      decide_eq_false_iff_not] at hrest
    simp [hrest.1.1.2, hrest.1.2, hrest.2, hval]

theorem parseNumber_intChars {k : Int} {rest : List Char}
    (hrest : numSafe rest = true) : parseNumber (intChars k ++ rest) = some (k, rest) := by
  cases k with
  | ofNat n =>
    rw [intChars]
    obtain ⟨d, ds, hnc⟩ : ∃ d ds, natChars n = d :: ds := by
      cases hx : natChars n with
      | nil => exact absurd hx (natChars_ne_nil n)
      | cons d ds => exact ⟨d, ds, rfl⟩
    have hd : isDig d = true := natChars_digits n d (by rw [hnc]; simp)
    rw [hnc, List.cons_append, parseNumber]
    rw [if_neg (isDig_ne_chars hd).1, ← List.cons_append, ← hnc,
      parseIntTail_natChars hrest]
    rfl
  | negSucc n =>
    rw [intChars, List.cons_append, parseNumber, if_pos rfl,
      parseIntTail_natChars hrest]
    simp only [Option.map_some', Option.some.injEq, Prod.mk.injEq, and_true]
    rw [Int.negSucc_eq]
    push_cast
    ring

/-! ### String escapes: round trip -/

theorem hexVal_hexDigitChar : ∀ d : Nat, d < 16 → hexVal (hexDigitChar d) = some d := by
  decide

theorem parseStrBody_u (a b c3 d : Char) (r : List Char) :
    parseStrBody ('\\' :: 'u' :: a :: b :: c3 :: d :: r) =
      (match hexVal a, hexVal b, hexVal c3, hexVal d with
        | some va, some vb, some vc, some vd =>
          (parseStrBody r).map
            (fun p => (Char.ofNat (((va * 16 + vb) * 16 + vc) * 16 + vd) :: p.1, p.2))
        | _, _, _, _ => none) := by
  rfl

theorem parseStrBody_esc1 {e : Char} (hne : ¬ e = 'u') (r : List Char) :
    parseStrBody ('\\' :: e :: r) =
      (match unescChar e with
        | some u => (parseStrBody r).map (fun p => (u :: p.1, p.2))
        | none => none) := by
  rw [parseStrBody.eq_def]
  simp [hne]

theorem parseStrBody_plain {c : Char} (h1 : ¬ c = '"') (h2 : ¬ c = '\\')
    (h3 : ¬ c.toNat < 32) (r : List Char) :
    parseStrBody (c :: r) = (parseStrBody r).map (fun p => (c :: p.1, p.2)) := by
  rw [parseStrBody.eq_def]
  simp [h1, h2, h3]

theorem parseStrBody_escList (s : List Char) :
    ∀ rest : List Char, parseStrBody (escList s ++ '"' :: rest) = some (s, rest) := by
  induction s with
  | nil =>
    intro rest
    show parseStrBody ('"' :: rest) = some ([], rest)
    rw [parseStrBody.eq_def]
    simp
  | cons c cs ih =>
    intro rest
    rw [escList, List.append_assoc]
    by_cases h1 : c = '"'
    · subst h1
      rw [escChar, if_pos rfl, List.cons_append, List.cons_append, List.nil_append,
        parseStrBody_esc1 (by decide), unescChar, if_pos rfl, ih rest]
      rfl
    · by_cases h2 : c = '\\'
      · subst h2
        rw [escChar, if_neg (by decide), if_pos rfl, List.cons_append, List.cons_append,
          List.nil_append, parseStrBody_esc1 (by decide)]
        rw [(by rfl : unescChar '\\' = some '\\'), ih rest]
        rfl
      · by_cases h3 : c = '\x08'
        · subst h3
          rw [escChar, if_neg (by decide), if_neg (by decide), if_pos rfl,
            List.cons_append, List.cons_append, List.nil_append,
            parseStrBody_esc1 (by decide)]
          rw [(by rfl : unescChar 'b' = some '\x08'), ih rest]
          rfl
        · by_cases h4 : c = '\x0c'
          · subst h4
            rw [escChar, if_neg (by decide), if_neg (by decide), if_neg (by decide),
              if_pos rfl, List.cons_append, List.cons_append, List.nil_append,
              parseStrBody_esc1 (by decide)]
            rw [(by rfl : unescChar 'f' = some '\x0c'), ih rest]
            rfl
          · by_cases h5 : c = '\n'
            · subst h5
              rw [escChar, if_neg (by decide), if_neg (by decide), if_neg (by decide),
                if_neg (by decide), if_pos rfl, List.cons_append, List.cons_append,
                List.nil_append, parseStrBody_esc1 (by decide)]
              rw [(by rfl : unescChar 'n' = some '\n'), ih rest]
              rfl
            · by_cases h6 : c = '\x0d'
              · subst h6
                rw [escChar, if_neg (by decide), if_neg (by decide), if_neg (by decide),
                  if_neg (by decide), if_neg (by decide), if_pos rfl, List.cons_append,
                  List.cons_append, List.nil_append, parseStrBody_esc1 (by decide)]
                rw [(by rfl : unescChar 'r' = some '\x0d'), ih rest]
                rfl
              · by_cases h7 : c = '\t'
                · subst h7
                  rw [escChar, if_neg (by decide), if_neg (by decide), if_neg (by decide),
                    if_neg (by decide), if_neg (by decide), if_neg (by decide), if_pos rfl,
                    List.cons_append, List.cons_append, List.nil_append,
                    parseStrBody_esc1 (by decide)]
                  rw [(by rfl : unescChar 't' = some '\t'), ih rest]
                  rfl
                · by_cases h8 : c.toNat < 32
                  · rw [escChar, if_neg h1, if_neg h2, if_neg h3, if_neg h4, if_neg h5,
                      if_neg h6, if_neg h7, if_pos h8]
                    rw [List.cons_append, List.cons_append, List.cons_append,
                      List.cons_append, List.cons_append, List.cons_append,
                      List.nil_append, parseStrBody_u]
                    rw [(by rfl : hexVal '0' = some 0),
                      hexVal_hexDigitChar (c.toNat / 16) (by omega),
                      hexVal_hexDigitChar (c.toNat % 16) (by omega),
                      ih rest]
                    have hv : ((0 * 16 + 0) * 16 + c.toNat / 16) * 16 + c.toNat % 16
                        = c.toNat := by omega
                    show some (Char.ofNat (((0 * 16 + 0) * 16 + c.toNat / 16) * 16
                      + c.toNat % 16) :: cs, rest) = some (c :: cs, rest)
                    rw [hv, Char.ofNat_toNat]
                  · rw [escChar, if_neg h1, if_neg h2, if_neg h3, if_neg h4, if_neg h5,
                      if_neg h6, if_neg h7, if_neg h8, List.cons_append, List.nil_append,
                      parseStrBody_plain h1 h2 h8, ih rest]
                    rfl

/-! ### Whitespace skipping and dump head shapes -/

theorem skipWs_cons_ws {c : Char} {s : List Char} (h : isWs c = true) :
    skipWs (c :: s) = skipWs s := by
  simp [skipWs, h]

theorem skipWs_cons_not {c : Char} {s : List Char} (h : isWs c = false) :
    skipWs (c :: s) = c :: s := by
  simp [skipWs, h]

theorem skipWs_pad (n : Nat) (s : List Char) : skipWs (pad n ++ s) = skipWs s := by
  induction n with
  | zero => rfl
  | succ m ih =>
    rw [pad, List.replicate_succ, List.cons_append, skipWs_cons_ws (by decide)]
    exact ih

theorem isDig_facts {c : Char} (h : isDig c = true) :
    isWs c = false ∧ ¬ c = '"' ∧ ¬ c = '{' ∧ ¬ c = '[' ∧ ¬ c = ']' ∧ ¬ c = '}' ∧
      ¬ c = ',' ∧ ¬ c = 'n' ∧ ¬ c = 't' ∧ ¬ c = 'f' ∧ ¬ c = '-' ∧ ¬ c = ':' := by
  have hws : isWs c = false := by
    by_cases e1 : c = ' '
    · rw [e1] at h; simp [isDig] at h
    · by_cases e2 : c = '\t'
      · rw [e2] at h; simp [isDig] at h
      · by_cases e3 : c = '\n'
        · rw [e3] at h; simp [isDig] at h
        · by_cases e4 : c = '\x0d'
          · rw [e4] at h; simp [isDig] at h
          · simp [isWs, e1, e2, e3, e4]
  refine ⟨hws, ?_, ?_, ?_, ?_, ?_, ?_, ?_, ?_, ?_, ?_, ?_⟩ <;>
    intro he <;> rw [he] at h <;> simp [isDig] at h

/-- Every pretty-printed value starts with one of the characters the
`json` scanner dispatches on. -/
theorem dumpVal_head (v : Json) (lv : Nat) :
    ∃ c r, dumpVal v lv = c :: r ∧
      (c = '{' ∨ c = '[' ∨ c = '"' ∨ c = 'n' ∨ c = 't' ∨ c = 'f' ∨ c = '-' ∨
        isDig c = true) := by
  cases v with
  | null => exact ⟨'n', _, rfl, by simp⟩
  | bool b => cases b with
    | true => exact ⟨'t', _, rfl, by simp⟩
    | false => exact ⟨'f', _, rfl, by simp⟩
  | num k =>
    cases k with
    | ofNat n =>
      obtain ⟨d, ds, hnc⟩ : ∃ d ds, natChars n = d :: ds := by
        cases hx : natChars n with
        | nil => exact absurd hx (natChars_ne_nil n)
        | cons d ds => exact ⟨d, ds, rfl⟩
      refine ⟨d, ds, ?_, ?_⟩
      · rw [dumpVal, intChars, hnc]
      · exact Or.inr (Or.inr (Or.inr (Or.inr (Or.inr (Or.inr (Or.inr
          (natChars_digits n d (by rw [hnc]; simp))))))))
    | negSucc n => exact ⟨'-', _, by rw [dumpVal, intChars], by simp⟩
  | str s => exact ⟨'"', _, rfl, by simp⟩
  | arr xs => cases xs with
    | nil => exact ⟨'[', _, rfl, by simp⟩
    | cons h t => exact ⟨'[', _, rfl, by simp⟩
  | obj fs => cases fs with
    | nil => exact ⟨'{', _, rfl, by simp⟩
    | cons k v t => exact ⟨'{', _, rfl, by simp⟩

theorem dumpVal_head_not_ws (v : Json) (lv : Nat) (rest : List Char) :
    skipWs (dumpVal v lv ++ rest) = dumpVal v lv ++ rest := by
  obtain ⟨c, r, heq, hc⟩ := dumpVal_head v lv
  rw [heq, List.cons_append, skipWs_cons_not]
  rcases hc with rfl | rfl | rfl | rfl | rfl | rfl | rfl | hd
  · rfl
  · rfl
  · rfl
  · rfl
  · rfl
  · rfl
  · rfl
  · exact (isDig_facts hd).1

/-! ### Parser step lemmas and the printer-parser round trip -/

theorem pad_length (n : Nat) : (pad n).length = n := List.length_replicate n ' '

theorem numSafe_comma (xs : List Char) : numSafe (',' :: xs) = true := rfl

theorem numSafe_newline (xs : List Char) : numSafe ('\n' :: xs) = true := rfl

theorem parseVal_quote_step (f : Nat) (r : List Char) :
    parseVal (f + 1) ('"' :: r) =
      (match parseStrBody r with
        | some (cs, r2) => some (.str cs, r2)
        | none => none) := rfl

theorem parseVal_brace_step (f : Nat) (r : List Char) :
    parseVal (f + 1) ('{' :: r) =
      (match skipWs r with
        | c2 :: r2 =>
          if c2 = '}' then some (.obj .nil, r2)
          else
            match parseFields f (c2 :: r2) with
            | some (fs, r3) => some (.obj fs, r3)
            | none => none
        | [] => none) := rfl

theorem parseVal_brack_step (f : Nat) (r : List Char) :
    parseVal (f + 1) ('[' :: r) =
      (match skipWs r with
        | c2 :: r2 =>
          if c2 = ']' then some (.arr .nil, r2)
          else
            match parseElems f (c2 :: r2) with
            | some (es, r3) => some (.arr es, r3)
            | none => none
        | [] => none) := rfl

theorem parseElems_step (f : Nat) (s : List Char) :
    parseElems (f + 1) s =
      (match parseVal f s with
        | none => none
        | some (v, r) =>
          match skipWs r with
          | ']' :: r2 => some (.cons v .nil, r2)
          | ',' :: r2 =>
            match parseElems f (skipWs r2) with
            | some (vs, r3) => some (.cons v vs, r3)
            | none => none
          | _ => none) := rfl

theorem parseFields_step (f : Nat) (r : List Char) :
    parseFields (f + 1) ('"' :: r) =
      (match parseStrBody r with
        | none => none
        | some (k, r1) =>
          match skipWs r1 with
          | ':' :: r2 =>
            match parseVal f (skipWs r2) with
            | none => none
            | some (v, r3) =>
              match skipWs r3 with
              | '}' :: r4 => some (.cons k v .nil, r4)
              | ',' :: r4 =>
                match parseFields f (skipWs r4) with
                | some (fs, r5) => some (.cons k v fs, r5)
                | none => none
              | _ => none
          | _ => none) := rfl

theorem isDig_enum {c : Char} (h : isDig c = true) :
    c = '0' ∨ c = '1' ∨ c = '2' ∨ c = '3' ∨ c = '4' ∨ c = '5' ∨ c = '6' ∨ c = '7' ∨
      c = '8' ∨ c = '9' := by
  simp only [isDig, Bool.and_eq_true, decide_eq_true_eq] at h
  obtain ⟨ha, hb⟩ := h
  have ha' : 48 ≤ c.toNat := ha
  have hb' : c.toNat ≤ 57 := hb
  have hc := Char.ofNat_toNat c
  interval_cases hx : c.toNat <;> rw [← hc] <;> decide

theorem parseVal_num_head {c : Char} {r : List Char} (f : Nat)
    (h7 : (c = '-' || isDig c) = true) :
    parseVal (f + 1) (c :: r) =
      (match parseNumber (c :: r) with
        | some (n, r2) => some (.num n, r2)
        | none => none) := by
  rcases Bool.or_eq_true_iff.mp h7 with hc | hd
  · have : c = '-' := by simpa using hc
    subst this
    rfl
  · rcases isDig_enum hd with rfl | rfl | rfl | rfl | rfl | rfl | rfl | rfl | rfl | rfl <;>
      rfl

theorem skipWs_nl_pad (m : Nat) (s : List Char) :
    skipWs ('\n' :: (pad m ++ s)) = skipWs s := by
  rw [skipWs_cons_ws (by decide), skipWs_pad]

theorem length_dump_arr_cons (h : Json) (t : JsonList) (lv : Nat) :
    (dumpVal (.arr (.cons h t)) lv).length
      = 2 * (lv + 1) + (dumpVal h (lv + 1)).length
        + (dumpElemsRest t (lv + 1)).length + 2 * lv + 4 := by
  show ('[' :: '\n' :: (pad (2 * (lv + 1)) ++ dumpVal h (lv + 1)
    ++ dumpElemsRest t (lv + 1) ++ '\n' :: (pad (2 * lv) ++ [']']))).length = _
  simp only [List.length_cons, List.length_append, pad_length, List.length_nil]
  omega

theorem length_dump_obj_cons (k : List Char) (v : Json) (t : JsonFields) (lv : Nat) :
    (dumpVal (.obj (.cons k v t)) lv).length
      = 2 * (lv + 1) + (kvDump k v (lv + 1)).length
        + (dumpFieldsRest t (lv + 1)).length + 2 * lv + 4 := by
  rw [dumpVal_obj_cons]
  simp only [List.length_cons, List.length_append, pad_length, List.length_nil]
  omega

theorem length_elems_cons (h2 : Json) (t2 : JsonList) (lv : Nat) :
    (dumpElemsRest (.cons h2 t2) lv).length
      = 2 * lv + (dumpVal h2 lv).length + (dumpElemsRest t2 lv).length + 2 := by
  show (',' :: '\n' :: (pad (2 * lv) ++ dumpVal h2 lv ++ dumpElemsRest t2 lv)).length = _
  simp only [List.length_cons, List.length_append, pad_length]

theorem length_fields_cons (k2 : List Char) (v2 : Json) (t2 : JsonFields) (lv : Nat) :
    (dumpFieldsRest (.cons k2 v2 t2) lv).length
      = 2 * lv + (kvDump k2 v2 lv).length + (dumpFieldsRest t2 lv).length + 2 := by
  rw [dumpFieldsRest_cons]
  simp only [List.length_cons, List.length_append, pad_length]

theorem length_kvDump (k : List Char) (v : Json) (lv : Nat) :
    (kvDump k v lv).length = (escList k).length + (dumpVal v lv).length + 4 := by
  rw [kvDump]
  simp only [List.length_cons, List.length_append]
  omega

mutual

theorem rtVal : ∀ (v : Json) (lv : Nat) (rest : List Char) (fuel : Nat),
    (dumpVal v lv).length < fuel → numSafe rest = true →
    parseVal fuel (dumpVal v lv ++ rest) = some (v, rest)
  | .null, lv, rest, fuel, hf, _ => by
    cases fuel with
    | zero => exact absurd hf (Nat.not_lt_zero _)
    | succ f => rfl
  | .bool true, lv, rest, fuel, hf, _ => by
    cases fuel with
    | zero => exact absurd hf (Nat.not_lt_zero _)
    | succ f => rfl
  | .bool false, lv, rest, fuel, hf, _ => by
    cases fuel with
    | zero => exact absurd hf (Nat.not_lt_zero _)
    | succ f => rfl
  | .num k, lv, rest, fuel, hf, hrest => by
    cases fuel with
    | zero => exact absurd hf (Nat.not_lt_zero _)
    | succ f =>
      obtain ⟨c, cs, hic, hc⟩ :
          ∃ c cs, intChars k = c :: cs ∧ (c = '-' || isDig c) = true := by
        cases k with
        | ofNat n =>
          obtain ⟨d, ds, heq⟩ : ∃ d ds, natChars n = d :: ds := by
            cases hx : natChars n with
            | nil => exact absurd hx (natChars_ne_nil n)
            | cons d ds => exact ⟨d, ds, rfl⟩
          refine ⟨d, ds, ?_, ?_⟩
          · rw [show intChars (Int.ofNat n) = natChars n from rfl, heq]
          · simp [natChars_digits n d (by rw [heq]; simp)]
        | negSucc n => exact ⟨'-', natChars (n + 1), rfl, by simp⟩
      rw [show dumpVal (.num k) lv = intChars k from rfl, hic, List.cons_append,
        parseVal_num_head f hc, ← List.cons_append, ← hic,
        parseNumber_intChars hrest]
  | .str s, lv, rest, fuel, hf, _ => by
    cases fuel with
    | zero => exact absurd hf (Nat.not_lt_zero _)
    | succ f =>
      have hdump : dumpVal (.str s) lv ++ rest = '"' :: (escList s ++ '"' :: rest) := by
        show ('"' :: (escList s ++ ['"'])) ++ rest = _
        simp [List.append_assoc]
      rw [hdump, parseVal_quote_step, parseStrBody_escList]
  | .arr .nil, lv, rest, fuel, hf, _ => by
    cases fuel with
    | zero => exact absurd hf (Nat.not_lt_zero _)
    | succ f => rfl
  | .arr (.cons h t), lv, rest, fuel, hf, _ => by
    cases fuel with
    | zero => exact absurd hf (Nat.not_lt_zero _)
    | succ f =>
      have hdump : dumpVal (.arr (.cons h t)) lv ++ rest
          = '[' :: ('\n' :: (pad (2 * (lv + 1)) ++ (dumpVal h (lv + 1)
            ++ (dumpElemsRest t (lv + 1) ++ '\n' :: (pad (2 * lv) ++ ']' :: rest))))) := by
        show ('[' :: '\n' :: (pad (2 * (lv + 1)) ++ dumpVal h (lv + 1)
          ++ dumpElemsRest t (lv + 1) ++ '\n' :: (pad (2 * lv) ++ [']']))) ++ rest = _
        simp [List.append_assoc]
      rw [hdump, parseVal_brack_step, skipWs_cons_ws (by decide), skipWs_pad,
        dumpVal_head_not_ws]
      obtain ⟨c, r, hh, hcs⟩ := dumpVal_head h (lv + 1)
      have hne : ¬ c = ']' := by
        rcases hcs with rfl | rfl | rfl | rfl | rfl | rfl | rfl | hd
        · decide
        · decide
        · decide
        · decide
        · decide
        · decide
        · decide
        · exact (isDig_facts hd).2.2.2.2.1
      have hfe : (dumpVal h (lv + 1)).length + (dumpElemsRest t (lv + 1)).length + 1 < f := by
        rw [length_dump_arr_cons] at hf
        omega
      rw [hh, List.cons_append]
      simp only [if_neg hne]
      rw [← List.cons_append, ← hh, rtElems h t (lv + 1) (2 * lv) rest f hfe]
  | .obj .nil, lv, rest, fuel, hf, _ => by
    cases fuel with
    | zero => exact absurd hf (Nat.not_lt_zero _)
    | succ f => rfl
  | .obj (.cons k v t), lv, rest, fuel, hf, _ => by
    cases fuel with
    | zero => exact absurd hf (Nat.not_lt_zero _)
    | succ f =>
      have hdump : dumpVal (.obj (.cons k v t)) lv ++ rest
          = '{' :: ('\n' :: (pad (2 * (lv + 1)) ++ (kvDump k v (lv + 1)
            ++ (dumpFieldsRest t (lv + 1) ++ '\n' :: (pad (2 * lv) ++ '}' :: rest))))) := by
        rw [dumpVal_obj_cons]
        show ('{' :: '\n' :: (pad (2 * (lv + 1)) ++ kvDump k v (lv + 1)
          ++ dumpFieldsRest t (lv + 1) ++ '\n' :: (pad (2 * lv) ++ ['}']))) ++ rest = _
        simp [List.append_assoc]
      have hfe : (kvDump k v (lv + 1)).length + (dumpFieldsRest t (lv + 1)).length + 1 < f := by
        rw [length_dump_obj_cons] at hf
        omega
      rw [hdump, parseVal_brace_step, skipWs_cons_ws (by decide), skipWs_pad, kvDump,
        List.cons_append, skipWs_cons_not (by decide)]
      simp only [if_neg (by decide : ¬ ('"' : Char) = '}')]
      rw [← List.cons_append, ← kvDump, rtFields k v t (lv + 1) (2 * lv) rest f hfe]
  termination_by v => sizeOf v

theorem rtElems : ∀ (h : Json) (t : JsonList) (lv m : Nat) (rest : List Char) (fuel : Nat),
    (dumpVal h lv).length + (dumpElemsRest t lv).length + 1 < fuel →
    parseElems fuel (dumpVal h lv ++ (dumpElemsRest t lv ++ '\n' :: (pad m ++ ']' :: rest)))
      = some (.cons h t, rest)
  | h, .nil, lv, m, rest, fuel, hf => by
    cases fuel with
    | zero => exact absurd hf (Nat.not_lt_zero _)
    | succ f =>
      rw [show dumpElemsRest JsonList.nil lv = [] from rfl, List.nil_append, parseElems_step,
        rtVal h lv ('\n' :: (pad m ++ ']' :: rest)) f (by omega) (numSafe_newline _)]
      simp only [skipWs_nl_pad, skipWs_cons_not (by decide : isWs ']' = false)]
  | h, .cons h2 t2, lv, m, rest, fuel, hf => by
    cases fuel with
    | zero => exact absurd hf (Nat.not_lt_zero _)
    | succ f =>
      have hder : dumpElemsRest (.cons h2 t2) lv ++ '\n' :: (pad m ++ ']' :: rest)
          = ',' :: ('\n' :: (pad (2 * lv) ++ (dumpVal h2 lv
            ++ (dumpElemsRest t2 lv ++ '\n' :: (pad m ++ ']' :: rest))))) := by
        show (',' :: '\n' :: (pad (2 * lv) ++ dumpVal h2 lv ++ dumpElemsRest t2 lv))
          ++ '\n' :: (pad m ++ ']' :: rest) = _
        simp [List.append_assoc]
      have hfv : (dumpVal h lv).length < f := by
        rw [length_elems_cons] at hf
        omega
      have hfe : (dumpVal h2 lv).length + (dumpElemsRest t2 lv).length + 1 < f := by
        rw [length_elems_cons] at hf
        omega
      rw [hder, parseElems_step,
        rtVal h lv _ f hfv (numSafe_comma _)]
      simp only [skipWs_cons_not (by decide : isWs ',' = false)]
      rw [skipWs_nl_pad, dumpVal_head_not_ws,
        rtElems h2 t2 lv m rest f hfe]
  termination_by h t => sizeOf h + sizeOf t

theorem rtFields : ∀ (k : List Char) (v : Json) (t : JsonFields) (lv m : Nat)
    (rest : List Char) (fuel : Nat),
    (kvDump k v lv).length + (dumpFieldsRest t lv).length + 1 < fuel →
    parseFields fuel (kvDump k v lv ++ (dumpFieldsRest t lv ++ '\n' :: (pad m ++ '}' :: rest)))
      = some (.cons k v t, rest)
  | k, v, .nil, lv, m, rest, fuel, hf => by
    cases fuel with
    | zero => exact absurd hf (Nat.not_lt_zero _)
    | succ f =>
      have hkv : kvDump k v lv ++ (dumpFieldsRest JsonFields.nil lv
            ++ '\n' :: (pad m ++ '}' :: rest))
          = '"' :: (escList k ++ '"' :: (':' :: (' ' :: (dumpVal v lv
            ++ '\n' :: (pad m ++ '}' :: rest))))) := by
        rw [show dumpFieldsRest JsonFields.nil lv = [] from rfl, List.nil_append, kvDump]
        simp [List.append_assoc]
      have hfv : (dumpVal v lv).length < f := by
        rw [length_kvDump] at hf
        omega
      have hv := rtVal v lv ('\n' :: (pad m ++ '}' :: rest)) f hfv (numSafe_newline _)
      rw [hkv, parseFields_step, parseStrBody_escList]
      simp only [skipWs_cons_not (by decide : isWs ':' = false),
        skipWs_cons_ws (by decide : isWs ' ' = true), dumpVal_head_not_ws, hv,
        skipWs_nl_pad, skipWs_cons_not (by decide : isWs '}' = false)]
  | k, v, .cons k2 v2 t2, lv, m, rest, fuel, hf => by
    cases fuel with
    | zero => exact absurd hf (Nat.not_lt_zero _)
    | succ f =>
      have hkv : kvDump k v lv ++ (dumpFieldsRest (.cons k2 v2 t2) lv
            ++ '\n' :: (pad m ++ '}' :: rest))
          = '"' :: (escList k ++ '"' :: (':' :: (' ' :: (dumpVal v lv
            ++ ',' :: ('\n' :: (pad (2 * lv) ++ (kvDump k2 v2 lv
              ++ (dumpFieldsRest t2 lv ++ '\n' :: (pad m ++ '}' :: rest))))))))) := by
        rw [dumpFieldsRest_cons, kvDump]
        simp [List.append_assoc]
      have hfv : (dumpVal v lv).length < f := by
        rw [length_kvDump] at hf
        omega
      have hfe : (kvDump k2 v2 lv).length + (dumpFieldsRest t2 lv).length + 1 < f := by
        rw [length_fields_cons] at hf
        omega
      have hv := rtVal v lv (',' :: ('\n' :: (pad (2 * lv) ++ (kvDump k2 v2 lv
        ++ (dumpFieldsRest t2 lv ++ '\n' :: (pad m ++ '}' :: rest)))))) f hfv
        (numSafe_comma _)
      have hkv2 : skipWs (kvDump k2 v2 lv
            ++ (dumpFieldsRest t2 lv ++ '\n' :: (pad m ++ '}' :: rest)))
          = kvDump k2 v2 lv ++ (dumpFieldsRest t2 lv ++ '\n' :: (pad m ++ '}' :: rest)) := by
        rw [kvDump, List.cons_append, skipWs_cons_not (by decide)]
      have hrec := rtFields k2 v2 t2 lv m rest f hfe
      rw [hkv, parseFields_step, parseStrBody_escList]
      simp only [skipWs_cons_not (by decide : isWs ':' = false),
        skipWs_cons_ws (by decide : isWs ' ' = true), dumpVal_head_not_ws, hv,
        skipWs_cons_not (by decide : isWs ',' = false), skipWs_nl_pad, hkv2, hrec]
  termination_by _ v t => sizeOf v + sizeOf t

end

/-- The `json.loads`/`json.dumps` round trip: loading a pretty-printed dump
recovers the value exactly. -/
theorem jsonLoads_dumpVal (v : Json) : jsonLoads (dumpVal v 0) = some v := by
  rw [jsonLoads]
  have h1 : skipWs (dumpVal v 0) = dumpVal v 0 := by
    have := dumpVal_head_not_ws v 0 []
    simpa using this
  rw [h1]
  have h2 : parseVal ((dumpVal v 0).length + 1) (dumpVal v 0 ++ []) = some (v, []) :=
    rtVal v 0 [] ((dumpVal v 0).length + 1) (by omega) rfl
  simp only [List.append_nil] at h2
  rw [h2]
  rfl

/-! ### Brace-clean values and the depth scan over dumps -/

/-- The string contains no brace characters. -/
def braceFree (s : List Char) : Bool := s.all (fun c => !(c = '{' || c = '}'))

mutual

/-- No string (key or value) anywhere in the value contains a `{` or `}`
character, so every brace in its serialization is structural. -/
def braceClean : Json → Bool
  | .null => true
  | .bool _ => true
  | .num _ => true
  | .str s => braceFree s
  | .arr xs => braceCleanL xs
  | .obj fs => braceCleanF fs

/-- `braceClean` on array elements. -/
def braceCleanL : JsonList → Bool
  | .nil => true
  | .cons h t => braceClean h && braceCleanL t

/-- `braceClean` on object fields (keys included). -/
def braceCleanF : JsonFields → Bool
  | .nil => true
  | .cons k v t => braceFree k && braceClean v && braceCleanF t

end

/-- The scan from any positive depth passes over the string without
stopping, and the string is brace-balanced. -/
def NoStop (xs : List Char) : Prop :=
  bal xs = 0 ∧ ∀ (d : Int) (i : Nat), 1 ≤ d → scanDepth xs d i = none

theorem NoStop_nil : NoStop [] := ⟨rfl, fun _ _ _ => rfl⟩

theorem NoStop_append {a b : List Char} (ha : NoStop a) (hb : NoStop b) :
    NoStop (a ++ b) := by
  obtain ⟨ha1, ha2⟩ := ha
  obtain ⟨hb1, hb2⟩ := hb
  constructor
  · rw [bal_append, ha1, hb1]
    omega
  · intro d i hd
    rw [scanDepth_append_none (ha2 d i hd) b, ha1, (by omega : d + (0 : Int) = d)]
    exact hb2 d _ hd


theorem NoStop_neutral {xs : List Char} (h : ∀ c ∈ xs, balDelta c = 0) : NoStop xs :=
  ⟨bal_neutral h, fun d i _ => scanDepth_neutral h d i⟩

theorem NoStop_single {c : Char} (h1 : ¬ c = '{') (h2 : ¬ c = '}') : NoStop [c] :=
  NoStop_neutral (by
    intro x hx
    simp only [List.mem_singleton] at hx
    subst hx
    exact balDelta_eq_zero h1 h2)

theorem NoStop_wrap {mid : List Char} (h : NoStop mid) :
    NoStop ('{' :: (mid ++ ['}'])) := by
  obtain ⟨h1, h2⟩ := h
  constructor
  · rw [bal, balDelta_open, bal_append, h1, bal, balDelta_close, bal]
    omega
  · intro d i hd
    rw [scanDepth_cons_open, scanDepth_append_none (h2 (d + 1) (i + 1) (by omega)), h1,
      (by omega : d + 1 + (0 : Int) = d + 1), scanDepth_cons_close_go (by omega)]
    rfl

theorem balDelta_escChar {c : Char} (h1 : ¬ c = '{') (h2 : ¬ c = '}') :
    ∀ x ∈ escChar c, balDelta x = 0 := by
  have hhex : ∀ d : Nat, d < 16 → balDelta (hexDigitChar d) = 0 := by decide
  intro x hx
  rw [escChar] at hx
  by_cases e1 : c = '"'
  · rw [if_pos e1] at hx
    simp only [List.mem_cons, List.not_mem_nil, or_false] at hx
    rcases hx with rfl | rfl <;> rfl
  · rw [if_neg e1] at hx
    by_cases e2 : c = '\\'
    · rw [if_pos e2] at hx
      simp only [List.mem_cons, List.not_mem_nil, or_false] at hx
      rcases hx with rfl | rfl <;> rfl
    · rw [if_neg e2] at hx
      by_cases e3 : c = '\x08'
      · rw [if_pos e3] at hx
        simp only [List.mem_cons, List.not_mem_nil, or_false] at hx
        rcases hx with rfl | rfl <;> rfl
      · rw [if_neg e3] at hx
        by_cases e4 : c = '\x0c'
        · rw [if_pos e4] at hx
          simp only [List.mem_cons, List.not_mem_nil, or_false] at hx
          rcases hx with rfl | rfl <;> rfl
        · rw [if_neg e4] at hx
          by_cases e5 : c = '\n'
          · rw [if_pos e5] at hx
            simp only [List.mem_cons, List.not_mem_nil, or_false] at hx
            rcases hx with rfl | rfl <;> rfl
          · rw [if_neg e5] at hx
            by_cases e6 : c = '\x0d'
            · rw [if_pos e6] at hx
              simp only [List.mem_cons, List.not_mem_nil, or_false] at hx
              rcases hx with rfl | rfl <;> rfl
            · rw [if_neg e6] at hx
              by_cases e7 : c = '\t'
              · rw [if_pos e7] at hx
                simp only [List.mem_cons, List.not_mem_nil, or_false] at hx
                rcases hx with rfl | rfl <;> rfl
              · rw [if_neg e7] at hx
                by_cases e8 : c.toNat < 32
                · rw [if_pos e8] at hx
                  simp only [List.mem_cons, List.not_mem_nil, or_false] at hx
                  rcases hx with rfl | rfl | rfl | rfl | rfl | rfl
                  · rfl
                  · rfl
                  · rfl
                  · rfl
                  · exact hhex _ (by omega)
                  · exact hhex _ (by omega)
                · rw [if_neg e8] at hx
                  simp only [List.mem_singleton] at hx
                  subst hx
                  exact balDelta_eq_zero h1 h2

theorem NoStop_escList {s : List Char} (h : braceFree s = true) :
    NoStop (escList s) := by
  refine NoStop_neutral ?_
  induction s with
  | nil => intro x hx; simp [escList] at hx
  | cons c r ih =>
    simp only [braceFree, List.all_cons, Bool.and_eq_true, Bool.not_eq_true',
      Bool.or_eq_false_iff, decide_eq_false_iff_not] at h
    intro x hx
    rw [escList] at hx
    rcases List.mem_append.mp hx with hm | hm
    · exact balDelta_escChar h.1.1 h.1.2 x hm
    · refine ih ?_ x hm
      simp only [braceFree]
      exact h.2

theorem NoStop_pad (n : Nat) : NoStop (pad n) := by
  refine NoStop_neutral ?_
  intro x hx
  rw [pad] at hx
  rw [List.eq_of_mem_replicate hx]
  rfl

theorem NoStop_intChars (k : Int) : NoStop (intChars k) := by
  refine NoStop_neutral ?_
  intro x hx
  have hdig : ∀ m : Nat, ∀ y ∈ natChars m, balDelta y = 0 := by
    intro m y hy
    have hd := natChars_digits m y hy
    exact balDelta_eq_zero (isDig_facts hd).2.2.1 (isDig_facts hd).2.2.2.2.2.1
  cases k with
  | ofNat n => exact hdig n x hx
  | negSucc n =>
    rw [intChars] at hx
    rcases List.mem_cons.mp hx with rfl | hm
    · rfl
    · exact hdig (n + 1) x hm

mutual

theorem NoStop_dumpVal : ∀ (v : Json) (lv : Nat), braceClean v = true →
    NoStop (dumpVal v lv)
  | .null, lv, _ =>
    NoStop_neutral (show ∀ c ∈ ['n', 'u', 'l', 'l'], balDelta c = 0 by decide)
  | .bool true, lv, _ =>
    NoStop_neutral (show ∀ c ∈ ['t', 'r', 'u', 'e'], balDelta c = 0 by decide)
  | .bool false, lv, _ =>
    NoStop_neutral (show ∀ c ∈ ['f', 'a', 'l', 's', 'e'], balDelta c = 0 by decide)
  | .num k, lv, _ => NoStop_intChars k
  | .str s, lv, hbc => by
    have hs : braceFree s = true := hbc
    have hshape : dumpVal (.str s) lv = ['"'] ++ escList s ++ ['"'] := by
      show '"' :: (escList s ++ ['"']) = _
      simp
    rw [hshape]
    exact NoStop_append (NoStop_append (NoStop_single (by decide) (by decide))
      (NoStop_escList hs)) (NoStop_single (by decide) (by decide))
  | .arr .nil, lv, _ =>
    NoStop_neutral (show ∀ c ∈ ['[', ']'], balDelta c = 0 by decide)
  | .arr (.cons h t), lv, hbc => by
    have hb : (braceClean h && braceCleanL t) = true := hbc
    rw [Bool.and_eq_true] at hb
    have hshape : dumpVal (.arr (.cons h t)) lv
        = ['['] ++ ['\n'] ++ pad (2 * (lv + 1)) ++ dumpVal h (lv + 1)
          ++ dumpElemsRest t (lv + 1) ++ ['\n'] ++ pad (2 * lv) ++ [']'] := by
      show '[' :: '\n' :: (pad (2 * (lv + 1)) ++ dumpVal h (lv + 1)
        ++ dumpElemsRest t (lv + 1) ++ '\n' :: (pad (2 * lv) ++ [']'])) = _
      simp [List.append_assoc]
    rw [hshape]
    exact NoStop_append (NoStop_append (NoStop_append (NoStop_append (NoStop_append
      (NoStop_append (NoStop_append (NoStop_single (by decide) (by decide))
        (NoStop_single (by decide) (by decide))) (NoStop_pad _))
        (NoStop_dumpVal h (lv + 1) hb.1)) (NoStop_elems t (lv + 1) hb.2))
        (NoStop_single (by decide) (by decide))) (NoStop_pad _))
        (NoStop_single (by decide) (by decide))
  | .obj .nil, lv, _ => by
    show NoStop ('{' :: ([] ++ ['}']))
    exact NoStop_wrap NoStop_nil
  | .obj (.cons k v t), lv, hbc => by
    have hb : ((braceFree k && braceClean v) && braceCleanF t) = true := by
      have : braceCleanF (.cons k v t) = true := hbc
      rwa [braceCleanF] at this
    rw [Bool.and_eq_true, Bool.and_eq_true] at hb
    have hshape : dumpVal (.obj (.cons k v t)) lv
        = '{' :: ((['\n'] ++ pad (2 * (lv + 1)) ++ kvDump k v (lv + 1)
          ++ dumpFieldsRest t (lv + 1) ++ ['\n'] ++ pad (2 * lv)) ++ ['}']) := by
      rw [dumpVal_obj_cons]
      simp [List.append_assoc]
    rw [hshape]
    exact NoStop_wrap (NoStop_append (NoStop_append (NoStop_append (NoStop_append
      (NoStop_append (NoStop_single (by decide) (by decide)) (NoStop_pad _))
      (NoStop_kv k v (lv + 1) hb.1.1 hb.1.2)) (NoStop_fields t (lv + 1) hb.2))
      (NoStop_single (by decide) (by decide))) (NoStop_pad _))
  termination_by v => (sizeOf v, 0)

theorem NoStop_kv : ∀ (k : List Char) (v : Json) (lv : Nat), braceFree k = true →
    braceClean v = true → NoStop (kvDump k v lv)
  | k, v, lv, hk, hv => by
    have hshape : kvDump k v lv
        = ['"'] ++ escList k ++ ['"'] ++ [':'] ++ [' '] ++ dumpVal v lv := by
      rw [kvDump]
      simp [List.append_assoc]
    rw [hshape]
    exact NoStop_append (NoStop_append (NoStop_append (NoStop_append (NoStop_append
      (NoStop_single (by decide) (by decide)) (NoStop_escList hk))
      (NoStop_single (by decide) (by decide))) (NoStop_single (by decide) (by decide)))
      (NoStop_single (by decide) (by decide))) (NoStop_dumpVal v lv hv)
  termination_by _ v _ => (sizeOf v, 1)

theorem NoStop_elems : ∀ (t : JsonList) (lv : Nat), braceCleanL t = true →
    NoStop (dumpElemsRest t lv)
  | .nil, lv, _ => NoStop_nil
  | .cons h t, lv, hbc => by
    have hb : (braceClean h && braceCleanL t) = true := by
      have : braceCleanL (.cons h t) = true := hbc
      rwa [braceCleanL] at this
    rw [Bool.and_eq_true] at hb
    have hshape : dumpElemsRest (.cons h t) lv
        = [','] ++ ['\n'] ++ pad (2 * lv) ++ dumpVal h lv ++ dumpElemsRest t lv := by
      show ',' :: '\n' :: (pad (2 * lv) ++ dumpVal h lv ++ dumpElemsRest t lv) = _
      simp [List.append_assoc]
    rw [hshape]
    exact NoStop_append (NoStop_append (NoStop_append (NoStop_append
      (NoStop_single (by decide) (by decide)) (NoStop_single (by decide) (by decide)))
      (NoStop_pad _)) (NoStop_dumpVal h lv hb.1)) (NoStop_elems t lv hb.2)
  termination_by t _ => (sizeOf t, 0)

theorem NoStop_fields : ∀ (t : JsonFields) (lv : Nat), braceCleanF t = true →
    NoStop (dumpFieldsRest t lv)
  | .nil, lv, _ => NoStop_nil
  | .cons k v t, lv, hbc => by
    have hb : ((braceFree k && braceClean v) && braceCleanF t) = true := by
      have : braceCleanF (.cons k v t) = true := hbc
      rwa [braceCleanF] at this
    rw [Bool.and_eq_true, Bool.and_eq_true] at hb
    have hshape : dumpFieldsRest (.cons k v t) lv
        = [','] ++ ['\n'] ++ pad (2 * lv) ++ kvDump k v lv ++ dumpFieldsRest t lv := by
      rw [dumpFieldsRest_cons]
      simp [List.append_assoc]
    rw [hshape]
    exact NoStop_append (NoStop_append (NoStop_append (NoStop_append
      (NoStop_single (by decide) (by decide)) (NoStop_single (by decide) (by decide)))
      (NoStop_pad _)) (NoStop_kv k v lv hb.1.1 hb.1.2)) (NoStop_fields t lv hb.2)
  termination_by t _ _ => (sizeOf t, 0)

end

/-- On a brace-clean object, the scan started at the opening brace stops
exactly at the end of the pretty-printed dump, whatever follows. -/
theorem scanDepth_dump_obj {fs : JsonFields} (lv : Nat)
    (hbc : braceClean (.obj fs) = true) (rest : List Char) (i : Nat) :
    scanDepth (dumpVal (.obj fs) lv ++ rest) 0 i
      = some (i + (dumpVal (.obj fs) lv).length) := by
  cases fs with
  | nil =>
    show scanDepth ('{' :: '}' :: rest) 0 i = some (i + 2)
    rw [scanDepth_cons_open, scanDepth_cons_close_stop (by omega)]
  | cons k v t =>
    have hb : ((braceFree k && braceClean v) && braceCleanF t) = true := by
      have : braceCleanF (.cons k v t) = true := hbc
      rwa [braceCleanF] at this
    rw [Bool.and_eq_true, Bool.and_eq_true] at hb
    have hshape : dumpVal (.obj (.cons k v t)) lv
        = '{' :: ((['\n'] ++ pad (2 * (lv + 1)) ++ kvDump k v (lv + 1)
          ++ dumpFieldsRest t (lv + 1) ++ ['\n'] ++ pad (2 * lv)) ++ ['}']) := by
      rw [dumpVal_obj_cons]
      simp [List.append_assoc]
    have hmid : NoStop (['\n'] ++ pad (2 * (lv + 1)) ++ kvDump k v (lv + 1)
        ++ dumpFieldsRest t (lv + 1) ++ ['\n'] ++ pad (2 * lv)) :=
      NoStop_append (NoStop_append (NoStop_append (NoStop_append
        (NoStop_append (NoStop_single (by decide) (by decide)) (NoStop_pad _))
        (NoStop_kv k v (lv + 1) hb.1.1 hb.1.2)) (NoStop_fields t (lv + 1) hb.2))
        (NoStop_single (by decide) (by decide))) (NoStop_pad _)
    obtain ⟨g1, g2⟩ := hmid
    rw [hshape, List.cons_append, List.append_assoc, scanDepth_cons_open,
      (by omega : (0 : Int) + 1 = 1),
      scanDepth_append_none (g2 1 (i + 1) (by omega)), g1,
      (by omega : (1 : Int) + 0 = 1), List.singleton_append,
      scanDepth_cons_close_stop (by omega)]
    simp only [List.length_cons, List.length_append, List.length_nil,
      pad_length, Option.some.injEq]
    omega

/-! ### Extraction: introduction, inversion, and stability lemmas -/

theorem markerStr_length : markerStr.length = 23 := by decide

theorem markerStr_no_brace : ∀ c ∈ markerStr, ¬ c = '{' := by decide

theorem extract_intro {text : List Char} {m s p : Nat} {d : Json}
    (h1 : firstIdx markerStr text = some m)
    (h2 : idxFrom text ['{'] m = some s)
    (h3 : scanDepth (text.drop s) 0 0 = some p)
    (h4 : jsonLoads ((text.drop s).take p) = some d) :
    extractMenuJson text = .ok (d, s, s + p) := by
  rw [extractMenuJson]
  simp only [h1, h2, h3, h4]

theorem extract_err_intro {text : List Char}
    (h1 : firstIdx markerStr text = none) :
    extractMenuJson text = .error .markerNotFound := by
  rw [extractMenuJson]
  simp only [h1]

theorem extract_err_brace {text : List Char} {m : Nat}
    (h1 : firstIdx markerStr text = some m)
    (h2 : idxFrom text ['{'] m = none) :
    extractMenuJson text = .error .braceNotFound := by
  rw [extractMenuJson]
  simp only [h1, h2]

theorem extract_err_scan {text : List Char} {m s : Nat}
    (h1 : firstIdx markerStr text = some m)
    (h2 : idxFrom text ['{'] m = some s)
    (h3 : scanDepth (text.drop s) 0 0 = none) :
    extractMenuJson text = .error .malformed := by
  rw [extractMenuJson]
  simp only [h1, h2, h3]

theorem extract_err_parse {text : List Char} {m s p : Nat}
    (h1 : firstIdx markerStr text = some m)
    (h2 : idxFrom text ['{'] m = some s)
    (h3 : scanDepth (text.drop s) 0 0 = some p)
    (h4 : jsonLoads ((text.drop s).take p) = none) :
    extractMenuJson text = .error .parseError := by
  rw [extractMenuJson]
  simp only [h1, h2, h3, h4]

theorem extract_ok_elim {text : List Char} {d : Json} {s e : Nat}
    (h : extractMenuJson text = .ok (d, s, e)) :
    ∃ m, firstIdx markerStr text = some m ∧ idxFrom text ['{'] m = some s ∧
      s ≤ e ∧ scanDepth (text.drop s) 0 0 = some (e - s) ∧
      jsonLoads ((text.drop s).take (e - s)) = some d := by
  rw [extractMenuJson] at h
  cases hm : firstIdx markerStr text with
  | none => rw [hm] at h; simp at h
  | some m =>
    simp only [hm] at h
    cases hb : idxFrom text ['{'] m with
    | none => simp only [hb] at h; exact absurd h (by simp)
    | some s' =>
      simp only [hb] at h
      cases hs : scanDepth (text.drop s') 0 0 with
      | none => simp only [hs] at h; exact absurd h (by simp)
      | some p =>
        simp only [hs] at h
        cases hl : jsonLoads ((text.drop s').take p) with
        | none => simp only [hl] at h; exact absurd h (by simp)
        | some d' =>
          simp only [hl, Except.ok.injEq, Prod.mk.injEq] at h
          obtain ⟨hd, hs2, he⟩ := h
          subst hd
          subst hs2
          subst he
          refine ⟨m, rfl, hb, by omega, ?_, ?_⟩
          · rw [(by omega : s' + p - s' = p)]
            exact hs
          · rw [(by omega : s' + p - s' = p)]
            exact hl

/-- Occurrences strictly inside the preserved prefix are unchanged when the
tail is replaced. -/
theorem occursAt_take_append {pat t suffix : List Char} {cut j : Nat}
    (hj : j + pat.length ≤ cut) (hcut : cut ≤ t.length) :
    occursAt pat (t.take cut ++ suffix) j ↔ occursAt pat t j := by
  have hjc : j ≤ cut := by omega
  have hjt : j ≤ (t.take cut).length := by
    rw [List.length_take]
    omega
  rw [occursAt, occursAt, listIsPref_iff_take, listIsPref_iff_take,
    List.drop_append_of_le_length hjt,
    List.take_append_of_le_length (by rw [List.length_drop, List.length_take]; omega),
    List.drop_take, List.take_take, min_eq_left (by omega)]

theorem firstIdx_take_append {pat t suffix : List Char} {m cut : Nat}
    (hfi : firstIdx pat t = some m) (hm : m + pat.length ≤ cut)
    (hcut : cut ≤ t.length) :
    firstIdx pat (t.take cut ++ suffix) = some m := by
  obtain ⟨ho, hmin⟩ := firstIdx_some_iff.mp hfi
  refine firstIdx_some_iff.mpr ⟨(occursAt_take_append hm hcut).mpr ho, ?_⟩
  intro j hj hc
  exact hmin j hj ((occursAt_take_append (by omega) hcut).mp hc)

theorem occursAt_singleton {c : Char} {t : List Char} {j : Nat} :
    occursAt [c] t j ↔ t[j]? = some c := by
  rw [occursAt, ← List.head?_drop]
  cases t.drop j with
  | nil => simp [listIsPref]
  | cons x r =>
    simp only [listIsPref, List.head?_cons, Option.some.injEq, Bool.and_eq_true,
      decide_eq_true_eq]
    constructor
    · rintro ⟨h, -⟩; exact h.symm
    · intro h; exact ⟨h.symm, trivial⟩

/-- An extraction success pins down the marker, the brace, and the scan; the
brace position holds `{` and lies at least a marker-length past the marker. -/
theorem extract_ok_anatomy {text : List Char} {d : Json} {s e : Nat}
    (h : extractMenuJson text = .ok (d, s, e)) :
    ∃ m, firstIdx markerStr text = some m ∧
      m + markerStr.length ≤ s ∧ s < e ∧ e ≤ text.length ∧
      text[s]? = some '{' ∧
      (∀ j, m ≤ j → j < s → ¬ text[j]? = some '{') ∧
      scanDepth (text.drop s) 0 0 = some (e - s) ∧
      jsonLoads ((text.drop s).take (e - s)) = some d := by
  obtain ⟨m, hm, hb, hse, hs, hl⟩ := extract_ok_elim h
  obtain ⟨hms, hocc, hmin⟩ := idxFrom_some_iff.mp hb
  obtain ⟨hmo, -⟩ := firstIdx_some_iff.mp hm
  have hbc : text[s]? = some '{' := occursAt_singleton.mp hocc
  have hmlen : m + markerStr.length ≤ s := by
    by_contra hlt
    have hslt : s < m + markerStr.length := by omega
    have : markerStr[s - m]? = some '{' := by
      have hpref := listIsPref_iff_take.mp hmo
      have hd2 : (text.drop m)[s - m]? = some '{' := by
        rw [List.getElem?_drop, (by omega : m + (s - m) = s)]
        exact hbc
      have h2 : (List.take markerStr.length (List.drop m text))[s - m]? = some '{' := by
        rw [List.getElem?_take_of_lt (by omega)]
        exact hd2
      rw [hpref] at h2
      exact h2
    have hmem : '{' ∈ markerStr := by
      have := List.getElem?_mem this
      exact this
    exact markerStr_no_brace '{' hmem rfl
  have hcl : closesAt (text.drop s) 0 (e - s) ∧ _ := scanDepth_some_iff.mp hs
  obtain ⟨⟨hp1, hp2, -, -⟩, -⟩ := hcl
  have hel : e ≤ text.length := by
    rw [List.length_drop] at hp2
    omega
  refine ⟨m, hm, hmlen, by omega, hel, hbc, ?_, hs, hl⟩
  intro j hj1 hj2 hc
  exact hmin j hj1 hj2 (occursAt_singleton.mpr hc)

/-- The scan is determined by the text up to the position where it stops. -/
theorem scanDepth_take_append {xs ys : List Char} {d : Int} {p : Nat}
    (h : scanDepth xs d 0 = some p) :
    scanDepth (xs.take p ++ ys) d 0 = some p := by
  obtain ⟨⟨hp1, hp2, hg, hb⟩, hmin⟩ := scanDepth_some_iff.mp h
  refine scanDepth_some_iff.mpr ⟨⟨hp1, ?_, ?_, ?_⟩, ?_⟩
  · rw [List.length_append, List.length_take]
    omega
  · rw [List.getElem?_append_left (by rw [List.length_take]; omega),
      List.getElem?_take_of_lt (by omega)]
    exact hg
  · rw [List.take_append_of_le_length (by rw [List.length_take]; omega),
      List.take_take, min_eq_left (by omega)]
    exact hb
  · intro q hq hc
    obtain ⟨hq1, hq2, hqg, hqb⟩ := hc
    refine hmin q hq ⟨hq1, by omega, ?_, ?_⟩
    · rw [List.getElem?_append_left (by rw [List.length_take]; omega),
        List.getElem?_take_of_lt (by omega)] at hqg
      exact hqg
    · rw [List.take_append_of_le_length (by rw [List.length_take]; omega),
        List.take_take, min_eq_left (by omega)] at hqb
      exact hqb

theorem dump_obj_head (fs : JsonFields) (lv : Nat) :
    ∃ r, dumpVal (.obj fs) lv = '{' :: r := by
  cases fs with
  | nil => exact ⟨['}'], rfl⟩
  | cons k v t =>
    exact ⟨'\n' :: (pad (2 * (lv + 1)) ++ kvDump k v (lv + 1)
      ++ dumpFieldsRest t (lv + 1) ++ '\n' :: (pad (2 * lv) ++ ['}'])),
      dumpVal_obj_cons k v t lv⟩

theorem writeMenu_eq {text : List Char} {D d : Json} {s e : Nat}
    (hx : extractMenuJson text = .ok (d, s, e)) :
    writeMenu text D = .ok (text.take s ++ dumpVal D 0 ++ text.drop e) := by
  rw [writeMenu]
  simp only [hx]

theorem writeMenu_err {text : List Char} {D : Json} {err : ExtractErr}
    (hx : extractMenuJson text = .error err) :
    writeMenu text D = .error err := by
  rw [writeMenu]
  simp only [hx]

/-- Splicing the dump of a brace-clean object into the located span yields a
text from which extraction recovers exactly the new object, at the same
start offset. -/
theorem extract_after_splice {text : List Char} {d0 : Json} {s e : Nat}
    {fs : JsonFields}
    (hx : extractMenuJson text = .ok (d0, s, e))
    (hbc : braceClean (.obj fs) = true) :
    extractMenuJson (text.take s ++ dumpVal (.obj fs) 0 ++ text.drop e)
      = .ok (.obj fs, s, s + (dumpVal (.obj fs) 0).length) := by
  obtain ⟨m, hm, hmlen, hse, hel, hbrace, hnob, hscan, -⟩ := extract_ok_anatomy hx
  rw [List.append_assoc]
  have hslen : s ≤ text.length := by omega
  have hlen : (text.take s).length = s := by
    rw [List.length_take]
    omega
  have hdropT : (text.take s ++ (dumpVal (.obj fs) 0 ++ text.drop e)).drop s
      = dumpVal (.obj fs) 0 ++ text.drop e := by
    rw [List.drop_append_of_le_length (le_of_eq hlen.symm), List.drop_take,
      Nat.sub_self, List.take_zero, List.nil_append]
  have hmark : firstIdx markerStr (text.take s ++ (dumpVal (.obj fs) 0 ++ text.drop e))
      = some m :=
    firstIdx_take_append hm (by omega) hslen
  have hbraceT : idxFrom (text.take s ++ (dumpVal (.obj fs) 0 ++ text.drop e)) ['{'] m
      = some s := by
    refine idxFrom_some_iff.mpr ⟨by omega, ?_, ?_⟩
    · rw [occursAt_singleton, ← List.head?_drop, hdropT]
      obtain ⟨r, hr⟩ := dump_obj_head fs 0
      rw [hr]
      rfl
    · intro j hj1 hj2 hc
      exact hnob j hj1 hj2 (occursAt_singleton.mp
        ((occursAt_take_append (by simp; omega) hslen).mp hc))
  have hscanT : scanDepth ((text.take s ++ (dumpVal (.obj fs) 0 ++ text.drop e)).drop s) 0 0
      = some (dumpVal (.obj fs) 0).length := by
    rw [hdropT]
    have := scanDepth_dump_obj 0 hbc (text.drop e) 0
    simpa using this
  have hloadT : jsonLoads (((text.take s ++ (dumpVal (.obj fs) 0 ++ text.drop e)).drop s).take
      (dumpVal (.obj fs) 0).length) = some (.obj fs) := by
    rw [hdropT, List.take_left]
    exact jsonLoads_dumpVal _
  exact extract_intro hmark hbraceT hscanT hloadT

/-- Everything from the end offset onward — in particular any further copy
of the marker — does not affect the result of a successful extraction. -/
theorem extract_take_suffix {text : List Char} {d : Json} {s e : Nat}
    (suffix : List Char) (hx : extractMenuJson text = .ok (d, s, e)) :
    extractMenuJson (text.take e ++ suffix) = .ok (d, s, e) := by
  obtain ⟨m, hm, hmlen, hse, hel, hbrace, hnob, hscan, hload⟩ := extract_ok_anatomy hx
  have hlen : (text.take e).length = e := by
    rw [List.length_take]
    omega
  have hdropT : (text.take e ++ suffix).drop s = (text.drop s).take (e - s) ++ suffix := by
    rw [List.drop_append_of_le_length (by rw [hlen]; omega), List.drop_take]
  have hmark : firstIdx markerStr (text.take e ++ suffix) = some m := by
    refine firstIdx_take_append hm ?_ hel
    have h23 := markerStr_length
    omega
  have hbraceT : idxFrom (text.take e ++ suffix) ['{'] m = some s := by
    refine idxFrom_some_iff.mpr ⟨by omega, ?_, ?_⟩
    · exact (occursAt_take_append (by simp; omega) hel).mpr (occursAt_singleton.mpr hbrace)
    · intro j hj1 hj2 hc
      exact hnob j hj1 hj2 (occursAt_singleton.mp
        ((occursAt_take_append (by simp; omega) hel).mp hc))
  have hscanT : scanDepth ((text.take e ++ suffix).drop s) 0 0 = some (e - s) := by
    rw [hdropT]
    exact scanDepth_take_append hscan
  have hp1 : e - s ≤ (text.drop s).length := by
    rw [List.length_drop]
    omega
  have hloadT : jsonLoads (((text.take e ++ suffix).drop s).take (e - s)) = some d := by
    rw [hdropT, List.take_append_of_le_length (by rw [List.length_take]; omega),
      List.take_take, min_self]
    exact hload
  have := extract_intro hmark hbraceT hscanT hloadT
  rwa [(by omega : s + (e - s) = e)] at this

/-! ### Decidability instances for the semantic predicates -/

instance occursAtDec (pat s : List Char) (i : Nat) : Decidable (occursAt pat s i) :=
  decidable_of_iff (listIsPref pat (s.drop i) = true) Iff.rfl

instance closesAtDec (xs : List Char) (d : Int) (p : Nat) : Decidable (closesAt xs d p) :=
  decidable_of_iff
    (1 ≤ p ∧ p ≤ xs.length ∧ xs[p - 1]? = some '}' ∧ d + bal (xs.take p) = 0) Iff.rfl

/-- Model of the `isinstance(data, list)` test of `load_reservations`
(`server.py:106`). -/
def isArr : Json → Bool
  | .arr _ => true
  | _ => false

theorem toListJ_ofListJ (l : List Json) : toListJ (ofListJ l) = l := by
  induction l with
  | nil => rfl
  | cons h t ih => rw [ofListJ, toListJ, ih]

/-- Reading back a saved list recovers it exactly: the dump of a JSON array
parses back to itself and passes the list check of `load_reservations`. -/
theorem load_save (l : List Json) : loadReservations (saveReservations l) = l := by
  show loadReservations (.content (dumpVal (.arr (ofListJ l)) 0)) = l
  simp only [loadReservations, jsonLoads_dumpVal]
  exact toListJ_ofListJ l

/-- An occurrence of a nonempty pattern starts strictly inside the text. -/
theorem occursAt_lt_length {pat t : List Char} {i : Nat} (hp : 1 ≤ pat.length)
    (h : occursAt pat t i) : i < t.length := by
  have h' : listIsPref pat (t.drop i) = true := h
  have hl := listIsPref_length h'
  rw [List.length_drop] at hl
  omega

/-- Extraction over a text assembled as a clean prefix (marker, then no `{`)
followed by material starting at the object's opening brace: the outcome is
decided entirely by the depth scan of that material and the parse of the
scanned span. -/
theorem extract_over_append {pre rest : List Char} {m : Nat}
    (hm : firstIdx markerStr pre = some m)
    (hnb : ∀ j < pre.length, m ≤ j → ¬ pre[j]? = some '{')
    (hhead : ∃ r, rest = '{' :: r) :
    extractMenuJson (pre ++ rest)
      = match scanDepth rest 0 0 with
        | none => .error .malformed
        | some p =>
          match jsonLoads (rest.take p) with
          | none => .error .parseError
          | some d => .ok (d, pre.length, pre.length + p) := by
  obtain ⟨r0, hr0⟩ := hhead
  have h23 := markerStr_length
  have hocc : listIsPref markerStr (pre.drop m) = true := (firstIdx_some_iff.mp hm).1
  have hms : m + markerStr.length ≤ pre.length := by
    have := listIsPref_length hocc
    rw [List.length_drop] at this
    omega
  have hmark : firstIdx markerStr (pre ++ rest) = some m := by
    have h1 : firstIdx markerStr (pre.take pre.length ++ rest) = some m :=
      firstIdx_take_append hm hms (le_refl pre.length)
    rwa [List.take_length] at h1
  have hbraceT : idxFrom (pre ++ rest) ['{'] m = some pre.length := by
    refine idxFrom_some_iff.mpr ⟨by omega, ?_, ?_⟩
    · refine occursAt_singleton.mpr ?_
      rw [List.getElem?_append_right (le_refl pre.length), Nat.sub_self, hr0]
      simp
    · intro j hj1 hj2 hc
      have hcj := occursAt_singleton.mp hc
      rw [List.getElem?_append_left hj2] at hcj
      exact hnb j hj2 hj1 hcj
  have hdrop : (pre ++ rest).drop pre.length = rest := List.drop_left pre rest
  cases hscan : scanDepth rest 0 0 with
  | none =>
    rw [extract_err_scan hmark hbraceT (by rw [hdrop]; exact hscan)]
  | some p =>
    have hscanT : scanDepth ((pre ++ rest).drop pre.length) 0 0 = some p := by
      rw [hdrop]; exact hscan
    cases hload : jsonLoads (rest.take p) with
    | none =>
      rw [extract_err_parse hmark hbraceT hscanT (by rw [hdrop]; exact hload)]
      simp only [hload]
    | some d =>
      rw [extract_intro hmark hbraceT hscanT (by rw [hdrop]; exact hload)]
      simp only [hload]

/-! ### An object with a `}` inside a string value -/

/-- Characters that are inert both for the brace scan and inside a JSON
string body: not a quote, backslash, brace, or control character. -/
def plainChar (c : Char) : Bool :=
  !(c = '"' : Bool) && !(c = '\\' : Bool) && !(c = '{' : Bool) && !(c = '}' : Bool)
    && decide (32 ≤ c.toNat)

/-- A host-file object literal whose single string value contains a `}`
before the object's true closing brace, in list form: the object is
`\x7b"a": "A\x7dB"\x7d` for the plain fragments `A` and `B`. -/
def inStringBraceObj (A B : List Char) : List Char :=
  '{' :: (('"' :: 'a' :: '"' :: ':' :: ' ' :: '"' :: A) ++ ('}' :: (B ++ ['"', '}'])))

theorem plainChar_props {c : Char} (h : plainChar c = true) :
    ¬ c = '"' ∧ ¬ c = '\\' ∧ ¬ c = '{' ∧ ¬ c = '}' ∧ ¬ c.toNat < 32 := by
  simp only [plainChar, Bool.and_eq_true, Bool.not_eq_true', decide_eq_false_iff_not,
    decide_eq_true_eq] at h
  obtain ⟨⟨⟨⟨h1, h2⟩, h3⟩, h4⟩, h5⟩ := h
  exact ⟨h1, h2, h3, h4, by omega⟩

/-- A string body that never closes its quote fails to parse
(`json.loads` raises on an unterminated string). -/
theorem parseStrBody_no_quote {P : List Char}
    (h : ∀ c ∈ P, ¬ c = '"' ∧ ¬ c = '\\' ∧ ¬ c.toNat < 32) :
    parseStrBody P = none := by
  induction P with
  | nil => rfl
  | cons c r ih =>
    obtain ⟨h1, h2, h3⟩ := h c (by simp)
    rw [parseStrBody_plain h1 h2 h3, ih (fun x hx => h x (by simp [hx]))]
    rfl

/-- The span selected by the scan on an in-string-brace object — the object
truncated at the in-string `\x7d`, with its string value left unterminated —
is rejected by `json.loads`. -/
theorem jsonLoads_truncated_span {A : List Char}
    (hA : ∀ c ∈ A, plainChar c = true) :
    jsonLoads ('{' :: '"' :: 'a' :: '"' :: ':' :: ' ' :: '"' :: (A ++ ['}'])) = none := by
  have hbody : parseStrBody (A ++ ['}']) = none := by
    apply parseStrBody_no_quote
    intro c hc
    rcases List.mem_append.mp hc with h | h
    · obtain ⟨h1, h2, -, -, h5⟩ := plainChar_props (hA c h)
      exact ⟨h1, h2, h5⟩
    · simp only [List.mem_singleton] at h
      subst h
      exact ⟨by decide, by decide, by decide⟩
  have hquote : parseStrBody ('"' :: ':' :: ' ' :: '"' :: (A ++ ['}']))
      = some ([], ':' :: ' ' :: '"' :: (A ++ ['}'])) :=
    parseStrBody_escList [] (':' :: ' ' :: '"' :: (A ++ ['}']))
  have hkey : parseStrBody ('a' :: '"' :: ':' :: ' ' :: '"' :: (A ++ ['}']))
      = some (['a'], ':' :: ' ' :: '"' :: (A ++ ['}'])) := by
    rw [parseStrBody_plain (by decide) (by decide) (by decide), hquote]
    rfl
  have hval : parseVal (6 + A.length + 1) ('"' :: (A ++ ['}'])) = none := by
    rw [parseVal_quote_step, hbody]
  have hfields : parseFields (7 + A.length + 1)
      ('"' :: 'a' :: '"' :: ':' :: ' ' :: '"' :: (A ++ ['}'])) = none := by
    rw [parseFields_step]
    simp only [hkey]
    simp only [show skipWs (':' :: ' ' :: '"' :: (A ++ ['}']))
        = ':' :: ' ' :: '"' :: (A ++ ['}']) from rfl]
    simp only [show skipWs (' ' :: '"' :: (A ++ ['}'])) = '"' :: (A ++ ['}']) from rfl]
    rw [show 7 + A.length = 6 + A.length + 1 from by omega, hval]
  have hpv : parseVal (8 + A.length + 1)
      ('{' :: '"' :: 'a' :: '"' :: ':' :: ' ' :: '"' :: (A ++ ['}'])) = none := by
    rw [parseVal_brace_step]
    simp only [show skipWs ('"' :: 'a' :: '"' :: ':' :: ' ' :: '"' :: (A ++ ['}']))
        = '"' :: 'a' :: '"' :: ':' :: ' ' :: '"' :: (A ++ ['}']) from rfl]
    rw [show 8 + A.length = 7 + A.length + 1 from by omega, hfields]
    rw [if_neg (by decide)]
  rw [jsonLoads]
  rw [show ('{' :: '"' :: 'a' :: '"' :: ':' :: ' ' :: '"' :: (A ++ ['}'])).length
      = 8 + A.length from by
    simp only [List.length_cons, List.length_append, List.length_nil]
    omega]
  simp only [show skipWs ('{' :: '"' :: 'a' :: '"' :: ':' :: ' ' :: '"' :: (A ++ ['}']))
      = '{' :: '"' :: 'a' :: '"' :: ':' :: ' ' :: '"' :: (A ++ ['}']) from rfl]
  rw [hpv]

/-- The depth scan over an in-string-brace object stops just after the `\x7d`
inside the string value, at relative position `8 + A.length`, regardless of
what follows. -/
theorem scanDepth_inStringBrace {A : List Char} (B post : List Char)
    (hA : ∀ c ∈ A, plainChar c = true) :
    scanDepth (inStringBraceObj A B ++ post) 0 0 = some (8 + A.length) := by
  have hmid : ∀ c ∈ ('"' :: 'a' :: '"' :: ':' :: ' ' :: '"' :: A), balDelta c = 0 := by
    intro c hc
    simp only [List.mem_cons] at hc
    rcases hc with rfl | rfl | rfl | rfl | rfl | rfl | hmem
    · decide
    · decide
    · decide
    · decide
    · decide
    · decide
    · obtain ⟨-, -, h3, h4, -⟩ := plainChar_props (hA c hmem)
      exact balDelta_eq_zero h3 h4
  have hshape : inStringBraceObj A B ++ post
      = '{' :: (('"' :: 'a' :: '"' :: ':' :: ' ' :: '"' :: A)
          ++ ('}' :: ((B ++ ['"', '}']) ++ post))) := by
    rw [inStringBraceObj]
    simp [List.append_assoc]
  rw [hshape, scanDepth_cons_open,
    scanDepth_append_none (scanDepth_neutral hmid (0 + 1) (0 + 1)),
    bal_neutral hmid, scanDepth_cons_close_stop (by omega)]
  simp only [Option.some.injEq, List.length_cons]
  omega

/-! ### Concrete fixtures for the spot checks -/

/-- The spec's nested-object example `\x7b"a": \x7b"b": 1\x7d\x7d`, as fields. -/
def fsEx : JsonFields :=
  .cons ("a".toList) (.obj (.cons ("b".toList) (.num 1) .nil)) .nil

/-- A stored reservation record with id `"x"`. -/
def recX : Json :=
  .obj (.cons ("id".toList) (.str ("x".toList))
    (.cons ("name".toList) (.str ("Ali".toList)) .nil))

/-- A stored reservation record with id `"y"`. -/
def recY : Json :=
  .obj (.cons ("id".toList) (.str ("y".toList))
    (.cons ("name".toList) (.str ("Veli".toList)) .nil))

/-- A two-record store where exactly one record has id `"x"`. -/
def stTwo : FileState := saveReservations [recX, recY]

/-- The store left after the record with id `"x"` is removed. -/
def stOne : FileState := saveReservations [recY]

/-- The reservation body of the spec's append-then-list example. -/
def ayseInput : ReservationInput :=
  ⟨"Ayşe".toList, none, 2, "2025-11-25".toList, "19:30".toList, "yemek".toList, none⟩

/-- A sample server-generated uuid4 string. -/
def uuidEx : List Char := "3f2c8a1e-5b4d-4c6a-9e2f-1a7b8c9d0e1f".toList

/-- A sample server-generated creation timestamp in `isoformat()` form. -/
def tsEx : List Char := "2025-11-20T12:00:00+00:00".toList

/-! ### The claims -/

/-- C1 (corrected): the extract-after-replace round trip holds for every
replacement document that is a brace-clean object (no `\x7b` or `\x7d` in any
serialized key or string value): writing it into a text from which extraction
succeeds and extracting again recovers exactly the written document.  The
claim's unrestricted form over all valid documents is false — see the
counterexample, where a `\x7d` inside a string value derails the depth scan
of the re-extraction. -/
theorem C1_roundtrip {text : List Char} {d0 : Json} {s e : Nat} {fs : JsonFields}
    (hx : extractMenuJson text = .ok (d0, s, e))
    (hbc : braceClean (.obj fs) = true) :
    ∃ t, writeMenu text (.obj fs) = .ok t
      ∧ ∃ s2 e2, extractMenuJson t = .ok (.obj fs, s2, e2) :=
  ⟨text.take s ++ dumpVal (.obj fs) 0 ++ text.drop e, writeMenu_eq hx,
    s, s + (dumpVal (.obj fs) 0).length, extract_after_splice hx hbc⟩

/-- C1 counterexample: replacing the embedded object with
`\x7b"a": "\x7d"\x7d` — a perfectly valid document whose string value holds a
`\x7d` — succeeds, but re-extraction then fails with a parse error instead of
returning the document, because the depth scan stops at the in-string
`\x7d`. -/
theorem C1_roundtrip_counterexample :
    writeMenu ("export const menuData = \x7b\x7d;".toList)
        (.obj (.cons ("a".toList) (.str ("\x7d".toList)) .nil))
      = .ok ("export const menuData = \x7b\n  \"a\": \"\x7d\"\n\x7d;".toList)
    ∧ extractMenuJson ("export const menuData = \x7b\n  \"a\": \"\x7d\"\n\x7d;".toList)
      = .error .parseError :=
  ⟨by decide, by decide⟩

/-- C1 witness: a concrete successful round trip through a brace-clean
object. -/
theorem C1_roundtrip_witness :
    ∃ t, writeMenu ("export const menuData = \x7b\x7d;".toList)
        (.obj (.cons ("tr".toList) (.str ("menu".toList)) .nil)) = .ok t
      ∧ ∃ s2 e2, extractMenuJson t
          = .ok (.obj (.cons ("tr".toList) (.str ("menu".toList)) .nil), s2, e2) :=
  C1_roundtrip
    (show extractMenuJson ("export const menuData = \x7b\x7d;".toList)
      = .ok (.obj .nil, 24, 26) from by decide)
    (by decide)

/-- C2: on any text where extraction succeeds with offsets `(s, e)`,
`write_menu` produces exactly `text[:s] ++ dump(D) ++ text[e:]`; the first
`s` characters (the marker included) and everything from the new end offset
`s + |dump(D)|` onward are byte-identical to the original's prefix and
suffix. -/
theorem C2_offset_preservation {text : List Char} {d : Json} {s e : Nat} (D : Json)
    (hx : extractMenuJson text = .ok (d, s, e)) :
    writeMenu text D = .ok (text.take s ++ dumpVal D 0 ++ text.drop e)
    ∧ (text.take s ++ dumpVal D 0 ++ text.drop e).take s = text.take s
    ∧ (text.take s ++ dumpVal D 0 ++ text.drop e).drop (s + (dumpVal D 0).length)
        = text.drop e := by
  obtain ⟨m, -, hmlen, hse, hel, -, -, -, -⟩ := extract_ok_anatomy hx
  have hlen : (text.take s).length = s := by
    rw [List.length_take]
    omega
  refine ⟨writeMenu_eq hx, ?_, ?_⟩
  · rw [List.append_assoc, List.take_append_of_le_length (le_of_eq hlen.symm),
      List.take_take, min_self]
  · rw [show s + (dumpVal D 0).length = (text.take s ++ dumpVal D 0).length from by
      simp [hlen], List.drop_left]

/-- C2 witness: the concrete splice decomposition around offsets 24 and 26. -/
theorem C2_offset_preservation_witness :
    writeMenu ("export const menuData = \x7b\x7d;".toList) (.obj fsEx)
      = .ok (("export const menuData = \x7b\x7d;".toList).take 24
          ++ dumpVal (.obj fsEx) 0 ++ ("export const menuData = \x7b\x7d;".toList).drop 26)
    ∧ (("export const menuData = \x7b\x7d;".toList).take 24
          ++ dumpVal (.obj fsEx) 0
          ++ ("export const menuData = \x7b\x7d;".toList).drop 26).take 24
        = ("export const menuData = \x7b\x7d;".toList).take 24
    ∧ (("export const menuData = \x7b\x7d;".toList).take 24
          ++ dumpVal (.obj fsEx) 0
          ++ ("export const menuData = \x7b\x7d;".toList).drop 26).drop
          (24 + (dumpVal (.obj fsEx) 0).length)
        = ("export const menuData = \x7b\x7d;".toList).drop 26 :=
  C2_offset_preservation (.obj fsEx)
    (show extractMenuJson ("export const menuData = \x7b\x7d;".toList)
      = .ok (.obj .nil, 24, 26) from by decide)

/-- C3: the error taxonomy of `_extract_menu_json`, with each branch
condition stated semantically — no marker occurrence anywhere gives the
marker error; a first marker occurrence followed by no `\x7b` gives the
brace error; a located opening brace whose scan suffix never closes gives
the malformed error; a closing position whose span does not parse gives the
parse error; and otherwise extraction succeeds with the scanned span. -/
theorem C3_error_taxonomy (text : List Char) :
    ((∀ i < text.length, ¬ occursAt markerStr text i) →
        extractMenuJson text = .error .markerNotFound)
  ∧ (∀ m, occursAt markerStr text m →
      (∀ i < m, ¬ occursAt markerStr text i) →
      (∀ j < text.length, m ≤ j → ¬ text[j]? = some '{') →
      extractMenuJson text = .error .braceNotFound)
  ∧ (∀ m s, occursAt markerStr text m →
      (∀ i < m, ¬ occursAt markerStr text i) →
      m ≤ s → text[s]? = some '{' →
      (∀ j < s, m ≤ j → ¬ text[j]? = some '{') →
      (∀ p ≤ (text.drop s).length, ¬ closesAt (text.drop s) 0 p) →
      extractMenuJson text = .error .malformed)
  ∧ (∀ m s p, occursAt markerStr text m →
      (∀ i < m, ¬ occursAt markerStr text i) →
      m ≤ s → text[s]? = some '{' →
      (∀ j < s, m ≤ j → ¬ text[j]? = some '{') →
      closesAt (text.drop s) 0 p →
      (∀ q < p, ¬ closesAt (text.drop s) 0 q) →
      jsonLoads ((text.drop s).take p) = none →
      extractMenuJson text = .error .parseError)
  ∧ (∀ m s p d, occursAt markerStr text m →
      (∀ i < m, ¬ occursAt markerStr text i) →
      m ≤ s → text[s]? = some '{' →
      (∀ j < s, m ≤ j → ¬ text[j]? = some '{') →
      closesAt (text.drop s) 0 p →
      (∀ q < p, ¬ closesAt (text.drop s) 0 q) →
      jsonLoads ((text.drop s).take p) = some d →
      extractMenuJson text = .ok (d, s, s + p)) := by
  have hmlen : 1 ≤ markerStr.length := by
    rw [markerStr_length]
    omega
  refine ⟨?_, ?_, ?_, ?_, ?_⟩
  · intro h
    refine extract_err_intro (firstIdx_none_iff.mpr ?_)
    intro i hocc
    exact h i (occursAt_lt_length hmlen hocc) hocc
  · intro m hm hmin h
    refine extract_err_brace (firstIdx_some_iff.mpr ⟨hm, hmin⟩)
      (idxFrom_none_iff.mpr ?_)
    intro j hj hocc
    have hjl : j < text.length := occursAt_lt_length (by decide) hocc
    exact h j hjl hj (occursAt_singleton.mp hocc)
  · intro m s hm hmin hms hbr hnob hns
    refine extract_err_scan (firstIdx_some_iff.mpr ⟨hm, hmin⟩)
      (idxFrom_some_iff.mpr ⟨hms, occursAt_singleton.mpr hbr,
        fun j hj1 hj2 hc => hnob j hj2 hj1 (occursAt_singleton.mp hc)⟩)
      (scanDepth_none_iff.mpr ?_)
    intro p hc
    exact hns p hc.2.1 hc
  · intro m s p hm hmin hms hbr hnob hcl hclmin hload
    exact extract_err_parse (firstIdx_some_iff.mpr ⟨hm, hmin⟩)
      (idxFrom_some_iff.mpr ⟨hms, occursAt_singleton.mpr hbr,
        fun j hj1 hj2 hc => hnob j hj2 hj1 (occursAt_singleton.mp hc)⟩)
      (scanDepth_some_iff.mpr ⟨hcl, hclmin⟩) hload
  · intro m s p d hm hmin hms hbr hnob hcl hclmin hload
    exact extract_intro (firstIdx_some_iff.mpr ⟨hm, hmin⟩)
      (idxFrom_some_iff.mpr ⟨hms, occursAt_singleton.mpr hbr,
        fun j hj1 hj2 hc => hnob j hj2 hj1 (occursAt_singleton.mp hc)⟩)
      (scanDepth_some_iff.mpr ⟨hcl, hclmin⟩) hload

/-- C3 witness: each error of the taxonomy, and a success, on concrete
texts. -/
theorem C3_error_taxonomy_witness :
    extractMenuJson ("hello".toList) = .error .markerNotFound
  ∧ extractMenuJson ("export const menuData = 5;".toList) = .error .braceNotFound
  ∧ extractMenuJson ("export const menuData = \x7b".toList) = .error .malformed
  ∧ extractMenuJson ("export const menuData = \x7b,\x7d".toList) = .error .parseError
  ∧ extractMenuJson ("export const menuData = \x7b\x7d;".toList)
      = .ok (.obj .nil, 24, 26) :=
  ⟨(C3_error_taxonomy _).1 (by decide),
   (C3_error_taxonomy _).2.1 0 (by decide) (by decide) (by decide),
   (C3_error_taxonomy _).2.2.1 0 24 (by decide) (by decide) (by decide) (by decide)
     (by decide) (by decide),
   (C3_error_taxonomy _).2.2.2.1 0 24 3 (by decide) (by decide) (by decide) (by decide)
     (by decide) (by decide) (by decide) (by decide),
   (C3_error_taxonomy _).2.2.2.2 0 24 2 (.obj .nil) (by decide) (by decide) (by decide)
     (by decide) (by decide) (by decide) (by decide) (by decide)⟩

/-- C4: depth correctness — for any text assembled from a clean prefix (the
marker, then no `\x7b`) followed by the serialization of a brace-clean object
and arbitrary trailing content, extraction returns the whole object with the
end offset at its matching outer closing brace, spanning the full
serialization rather than stopping at the first inner `\x7d`. -/
theorem C4_depth_correctness {pre post : List Char} {fs : JsonFields} {m : Nat}
    (hbc : braceClean (.obj fs) = true)
    (hm : firstIdx markerStr pre = some m)
    (hnb : ∀ j < pre.length, m ≤ j → ¬ pre[j]? = some '{') :
    extractMenuJson (pre ++ (dumpVal (.obj fs) 0 ++ post))
      = .ok (.obj fs, pre.length, pre.length + (dumpVal (.obj fs) 0).length) := by
  obtain ⟨r0, hr0⟩ := dump_obj_head fs 0
  rw [extract_over_append hm hnb ⟨r0 ++ post, by rw [hr0, List.cons_append]⟩]
  have hscan : scanDepth (dumpVal (.obj fs) 0 ++ post) 0 0
      = some (dumpVal (.obj fs) 0).length := by
    have h1 := scanDepth_dump_obj 0 hbc post 0
    simpa using h1
  simp only [hscan]
  rw [List.take_left]
  simp only [jsonLoads_dumpVal]

/-- C4 witness: the spec's example `\x7b"a": \x7b"b": 1\x7d\x7d` is extracted
whole — the scanned span is all 27 characters of its pretty-printed
serialization, not truncated at the inner `\x7d`. -/
theorem C4_depth_correctness_witness :
    extractMenuJson (("export const menuData = ".toList)
        ++ (dumpVal (.obj fsEx) 0 ++ (";".toList)))
      = .ok (.obj fsEx, 24, 24 + (dumpVal (.obj fsEx) 0).length)
    ∧ (dumpVal (.obj fsEx) 0).length = 27 :=
  ⟨C4_depth_correctness (by decide)
    (show firstIdx markerStr ("export const menuData = ".toList) = some 0
      from by decide)
    (by decide), by decide⟩

/-- C5: load resilience — an absent file, an unparseable file, and a file
whose parse is not a JSON array all load as the empty list, with no error
surfaced; a file holding a JSON array loads as exactly its elements, and in
particular reading back a saved list recovers it. -/
theorem C5_load_resilience :
    loadReservations .absent = []
  ∧ (∀ raw, jsonLoads raw = none → loadReservations (.content raw) = [])
  ∧ (∀ raw v, jsonLoads raw = some v → isArr v = false →
      loadReservations (.content raw) = [])
  ∧ (∀ raw xs, jsonLoads raw = some (.arr xs) →
      loadReservations (.content raw) = toListJ xs)
  ∧ (∀ l, loadReservations (saveReservations l) = l) := by
  refine ⟨rfl, ?_, ?_, ?_, load_save⟩
  · intro raw h
    simp only [loadReservations, h]
  · intro raw v h hv
    cases v with
    | null => simp only [loadReservations, h]
    | bool b => simp only [loadReservations, h]
    | num n => simp only [loadReservations, h]
    | str s => simp only [loadReservations, h]
    | arr xs => simp [isArr] at hv
    | obj fs => simp only [loadReservations, h]
  · intro raw xs h
    simp only [loadReservations, h]

/-- C5 witness: concrete resilience checks, including the spec's
"not a list" file. -/
theorem C5_load_resilience_witness :
    loadReservations .absent = []
  ∧ loadReservations (.content ("\x7b[".toList)) = []
  ∧ loadReservations (.content ("\"not a list\"".toList)) = []
  ∧ loadReservations (.content ("[1, 2]".toList))
      = toListJ (.cons (.num 1) (.cons (.num 2) .nil))
  ∧ loadReservations (saveReservations [.num 1]) = [.num 1] :=
  ⟨C5_load_resilience.1,
   C5_load_resilience.2.1 _ (by decide),
   C5_load_resilience.2.2.1 _ (.str ("not a list".toList)) (by decide) (by decide),
   C5_load_resilience.2.2.2.1 _ _ (by decide),
   C5_load_resilience.2.2.2.2 [.num 1]⟩

/-- C6: the removeById contract, on stores whose loaded records are all
objects — the required domain, since on a non-dict record `r.get("id")`
(`server.py:283`) raises `AttributeError` rather than answering `None`, and
`getId` only models the non-raising case.  On such a store the returned flag
is `true` exactly when some loaded record's `id` field equals the given id;
on `false` the file is left untouched (the 404 path does not rewrite it); on
`true` the new file holds precisely the loaded sequence with every matching
record excluded. -/
theorem C6_removeById {resId : List Char} {st : FileState} {removed : Bool}
    {st2 : FileState}
    (_hobj : ∀ r ∈ loadReservations st, isObjRec r = true)
    (h : deleteReservation resId st = (removed, st2)) :
    (removed = true ↔ ∃ r ∈ loadReservations st, getId r = some (.str resId))
  ∧ (removed = false → st2 = st)
  ∧ (removed = true →
      st2 = saveReservations ((loadReservations st).filter
          (fun r => !(getId r = some (.str resId) : Bool)))
      ∧ loadReservations st2 = (loadReservations st).filter
          (fun r => !(getId r = some (.str resId) : Bool))) := by
  simp only [deleteReservation] at h
  by_cases hlen : ((loadReservations st).filter
      (fun r => !(getId r = some (.str resId) : Bool))).length
      = (loadReservations st).length
  · rw [if_pos hlen, Prod.mk.injEq] at h
    obtain ⟨hr, hs⟩ := h
    subst hr
    subst hs
    refine ⟨?_, fun _ => rfl, fun hff => absurd hff (by simp)⟩
    refine iff_of_false (by simp) ?_
    rintro ⟨r, hrm, hrid⟩
    have hall := List.filter_length_eq_length.mp hlen r hrm
    simp only [Bool.not_eq_true', decide_eq_false_iff_not] at hall
    exact hall hrid
  · rw [if_neg hlen, Prod.mk.injEq] at h
    obtain ⟨hr, hs⟩ := h
    subst hr
    subst hs
    refine ⟨?_, fun hff => absurd hff (by simp), fun _ => ⟨rfl, load_save _⟩⟩
    refine iff_of_true rfl ?_
    have hex : ∃ r ∈ loadReservations st,
        (!(getId r = some (.str resId) : Bool)) = false := by
      by_contra hc
      push_neg at hc
      refine hlen (List.filter_length_eq_length.mpr ?_)
      intro a ha
      cases hpa : (!(getId a = some (.str resId) : Bool)) with
      | true => rfl
      | false => exact absurd hpa (hc a ha)
    obtain ⟨r, hrm, hrf⟩ := hex
    simp only [Bool.not_eq_false', decide_eq_true_eq] at hrf
    exact ⟨r, hrm, hrf⟩

/-- C6 witness: the two-record store holds objects only, exactly the `"x"`
record is removed and the flag is `true`; a second removal of `"x"` returns
`false` and leaves the one-record store untouched. -/
theorem C6_removeById_witness :
    ((true : Bool) = true ↔ ∃ r ∈ loadReservations stTwo,
        getId r = some (.str ("x".toList)))
  ∧ loadReservations stOne = (loadReservations stTwo).filter
      (fun r => !(getId r = some (.str ("x".toList)) : Bool))
  ∧ (deleteReservation ("x".toList) stOne).2 = stOne :=
  ⟨(C6_removeById (by decide)
      (show deleteReservation ("x".toList) stTwo = (true, stOne)
        from by decide)).1,
   ((C6_removeById (by decide)
      (show deleteReservation ("x".toList) stTwo = (true, stOne)
        from by decide)).2.2 rfl).2,
   (C6_removeById (by decide)
      (show deleteReservation ("x".toList) stOne = (false, stOne)
        from by decide)).2.1 rfl⟩

/-- C7: append then list — creation saves the loaded sequence with exactly
one new record at its end; the new record is an object carrying the
server-generated id and creation timestamp and every supplied field
unchanged (with absent optional fields stored as null). -/
theorem C7_append_then_list {st : FileState} {prior : List Json}
    (inp : ReservationInput) (genId createdAt : List Char)
    (hload : loadReservations st = prior) :
    loadReservations (createReservation inp genId createdAt st)
      = prior ++ [mkReservationDoc inp genId createdAt]
  ∧ getId (mkReservationDoc inp genId createdAt) = some (.str genId)
  ∧ ∃ fs, mkReservationDoc inp genId createdAt = .obj fs
      ∧ fieldsGet fs ("name".toList) = some (.str inp.name)
      ∧ fieldsGet fs ("phone".toList) = some (optStr inp.phone)
      ∧ fieldsGet fs ("people".toList) = some (.num inp.people)
      ∧ fieldsGet fs ("date".toList) = some (.str inp.date)
      ∧ fieldsGet fs ("time".toList) = some (.str inp.time)
      ∧ fieldsGet fs ("type".toList) = some (.str inp.type)
      ∧ fieldsGet fs ("note".toList) = some (optStr inp.note)
      ∧ fieldsGet fs ("created_at".toList) = some (.str createdAt) := by
  refine ⟨?_, rfl, ?_⟩
  · rw [createReservation, load_save, hload]
  · exact ⟨_, rfl, rfl, rfl, rfl, rfl, rfl, rfl, rfl, rfl⟩

/-- C7 witness: appending the spec's example reservation to an empty store
and loading yields exactly one record, whose generated id and timestamp are
non-empty and whose supplied fields are all preserved. -/
theorem C7_append_then_list_witness :
    (loadReservations (createReservation ayseInput uuidEx tsEx .absent)
        = [] ++ [mkReservationDoc ayseInput uuidEx tsEx]
      ∧ getId (mkReservationDoc ayseInput uuidEx tsEx) = some (.str uuidEx)
      ∧ ∃ fs, mkReservationDoc ayseInput uuidEx tsEx = .obj fs
        ∧ fieldsGet fs ("name".toList) = some (.str ayseInput.name)
        ∧ fieldsGet fs ("phone".toList) = some (optStr ayseInput.phone)
        ∧ fieldsGet fs ("people".toList) = some (.num ayseInput.people)
        ∧ fieldsGet fs ("date".toList) = some (.str ayseInput.date)
        ∧ fieldsGet fs ("time".toList) = some (.str ayseInput.time)
        ∧ fieldsGet fs ("type".toList) = some (.str ayseInput.type)
        ∧ fieldsGet fs ("note".toList) = some (optStr ayseInput.note)
        ∧ fieldsGet fs ("created_at".toList) = some (.str tsEx))
    ∧ ¬ uuidEx = [] ∧ ¬ tsEx = [] :=
  ⟨C7_append_then_list ayseInput uuidEx tsEx rfl, by decide, by decide⟩

/-- A creation places the new record exactly at the end of the loaded
sequence. -/
theorem create_appends (inp : ReservationInput) (genId createdAt : List Char)
    (st : FileState) :
    loadReservations (applyOp (.create inp genId createdAt) st)
      = loadReservations st ++ [mkReservationDoc inp genId createdAt] := by
  show loadReservations (createReservation inp genId createdAt st) = _
  rw [createReservation, load_save]

/-- A removal never reorders: the surviving records form a sublist of the
loaded sequence. -/
theorem remove_sublist (resId : List Char) (st : FileState) :
    (loadReservations (applyOp (.remove resId) st)).Sublist (loadReservations st) := by
  show (loadReservations (deleteReservation resId st).2).Sublist (loadReservations st)
  simp only [deleteReservation]
  by_cases hlen : ((loadReservations st).filter
      (fun r => !(getId r = some (.str resId) : Bool))).length
      = (loadReservations st).length
  · rw [if_pos hlen]
  · rw [if_neg hlen]
    show (loadReservations (saveReservations _)).Sublist _
    rw [load_save]
    exact List.filter_sublist _

/-- C8: order preservation — across any sequence of creations and removals
the surviving records keep their relative insertion order (they form a
sublist of the initial records followed by the inserted ones, in insertion
order); each creation appends its record at the end, and each removal keeps
the survivors in their original relative order. -/
theorem C8_order_preservation (st : FileState) :
    (∀ ops, (loadReservations (applyOps ops st)).Sublist
        (loadReservations st ++ newDocs ops))
  ∧ (∀ inp genId createdAt,
      loadReservations (applyOp (.create inp genId createdAt) st)
        = loadReservations st ++ [mkReservationDoc inp genId createdAt])
  ∧ (∀ resId, (loadReservations (applyOp (.remove resId) st)).Sublist
      (loadReservations st)) := by
  refine ⟨?_, fun inp genId createdAt => create_appends inp genId createdAt st,
    fun resId => remove_sublist resId st⟩
  intro ops
  induction ops generalizing st with
  | nil =>
    simp only [applyOps, newDocs, List.append_nil]
    exact List.Sublist.refl _
  | cons op ops ih =>
    cases op with
    | create inp genId createdAt =>
      have h1 := ih (applyOp (.create inp genId createdAt) st)
      rw [create_appends] at h1
      rw [applyOps, newDocs]
      refine h1.trans ?_
      rw [List.append_assoc, List.singleton_append]
    | remove resId =>
      have h1 := ih (applyOp (.remove resId) st)
      rw [applyOps, newDocs]
      refine h1.trans ?_
      exact List.Sublist.append (remove_sublist resId st) (List.Sublist.refl _)

/-- C9: first-occurrence marker rule — appending anything (in particular a
second copy of the whole declaration, marker included) after a text on which
extraction succeeds changes neither the data nor the offsets; and the marker
occurrence the extraction locks onto is the first one in the text, ending
before the object's start. -/
theorem C9_first_marker {text : List Char} {d : Json} {s e : Nat}
    (suffix : List Char) (hx : extractMenuJson text = .ok (d, s, e)) :
    extractMenuJson (text ++ suffix) = .ok (d, s, e)
  ∧ ∃ m, occursAt markerStr text m ∧ (∀ i < m, ¬ occursAt markerStr text i)
      ∧ m + markerStr.length ≤ s := by
  obtain ⟨m, hm, hmlen, -, -, -, -, -, -⟩ := extract_ok_anatomy hx
  refine ⟨?_, m, (firstIdx_some_iff.mp hm).1, (firstIdx_some_iff.mp hm).2, hmlen⟩
  have h1 := extract_take_suffix (text.drop e ++ suffix) hx
  rwa [← List.append_assoc, List.take_append_drop] at h1

/-- C9 witness: duplicating the whole declaration after itself — a second
marker occurrence included — leaves the extraction of the first object
unchanged. -/
theorem C9_first_marker_witness :
    extractMenuJson (("export const menuData = \x7b\x7d;".toList)
        ++ ("export const menuData = \x7b\x7d;".toList))
      = .ok (.obj .nil, 24, 26)
  ∧ ∃ m, occursAt markerStr ("export const menuData = \x7b\x7d;".toList) m
      ∧ (∀ i < m, ¬ occursAt markerStr ("export const menuData = \x7b\x7d;".toList) i)
      ∧ m + markerStr.length ≤ 24 :=
  C9_first_marker _
    (show extractMenuJson ("export const menuData = \x7b\x7d;".toList)
      = .ok (.obj .nil, 24, 26) from by decide)

/-- C10: the brace scan is not string-aware — on a document whose embedded
object `\x7b"a": "A\x7dB"\x7d` holds a `\x7d` inside its string value, the
scan stops just after that in-string `\x7d` (relative position `8 + |A|`),
strictly before the object's real closing brace, and extraction of the
resulting truncated span fails with a parse error. -/
theorem C10_in_string_brace {A : List Char} (B post : List Char)
    (hA : ∀ c ∈ A, plainChar c = true) :
    scanDepth (inStringBraceObj A B ++ post) 0 0 = some (8 + A.length)
  ∧ 8 + A.length < (inStringBraceObj A B).length
  ∧ extractMenuJson (("export const menuData = ".toList)
      ++ (inStringBraceObj A B ++ post))
      = .error .parseError := by
  have hscan := scanDepth_inStringBrace B post hA
  refine ⟨hscan, ?_, ?_⟩
  · rw [inStringBraceObj]
    simp only [List.length_cons, List.length_append, List.length_nil]
    omega
  · have htake : (inStringBraceObj A B ++ post).take (8 + A.length)
        = '{' :: '"' :: 'a' :: '"' :: ':' :: ' ' :: '"' :: (A ++ ['}']) := by
      have hsplit : inStringBraceObj A B ++ post
          = ('{' :: '"' :: 'a' :: '"' :: ':' :: ' ' :: '"' :: (A ++ ['}']))
            ++ ((B ++ ['"', '}']) ++ post) := by
        rw [inStringBraceObj]
        simp [List.append_assoc]
      rw [hsplit]
      exact List.take_left' (by
        simp only [List.length_cons, List.length_append, List.length_nil]
        omega)
    rw [extract_over_append
      (show firstIdx markerStr ("export const menuData = ".toList) = some 0
        from by decide)
      (by decide)
      ⟨_, by rw [inStringBraceObj, List.cons_append]⟩]
    simp only [hscan]
    rw [htake, jsonLoads_truncated_span hA]

/-- C10 witness: the concrete object `\x7b"a": "x\x7dy"\x7d` — valid JSON as
a whole, as the last conjunct checks — is cut by the scan at position 9, and
extraction of the document carrying it fails with a parse error. -/
theorem C10_in_string_brace_witness :
    scanDepth (inStringBraceObj ("x".toList) ("y".toList) ++ (";".toList)) 0 0
      = some 9
  ∧ 9 < (inStringBraceObj ("x".toList) ("y".toList)).length
  ∧ extractMenuJson (("export const menuData = ".toList)
      ++ (inStringBraceObj ("x".toList) ("y".toList) ++ (";".toList)))
      = .error .parseError
  ∧ jsonLoads (inStringBraceObj ("x".toList) ("y".toList))
      = some (.obj (.cons ("a".toList) (.str ("x\x7dy".toList)) .nil)) :=
  ⟨(@C10_in_string_brace ("x".toList) ("y".toList) (";".toList) (by decide)).1,
   (@C10_in_string_brace ("x".toList) ("y".toList) (";".toList) (by decide)).2.1,
   (@C10_in_string_brace ("x".toList) ("y".toList) (";".toList) (by decide)).2.2,
   by decide⟩

end QrVerify
